import Mathlib

/-!
# x402-hpke: a shallow embedding of the envelope codec

This development embeds the transport-based (v2) seal/open path of the
`@x402-hpke/node` package: `x402SecureTransport`, `buildAadFromTransport`,
`seal`/`open` from `envelope.ts`, the payment-header synthesis helper and the
XChaCha streaming limiter.  JavaScript values are modelled by the inductive
`JSValue`; JavaScript objects are association lists carrying their own-property
enumeration order, with inserts following the ECMAScript rule that array-index
keys enumerate first in ascending numeric order.  Byte strings are `List Nat`
(each entry a byte), JS strings are Lean `String`s (sequences of Unicode scalar
values; lone surrogates are outside the modelled domain).  Numbers are modelled
as integers (`Int`): the claims under study exercise only structural JSON, not
float formatting.

External collaborators (libsodium's X25519 and AEAD primitives, Node's
`createHmac`) are not repository code; they enter as the explicit parameter
structure `Crypto`, and theorems that need their contracts (DH agreement,
AEAD round-trip) take them as hypotheses that concrete instances discharge.
`String.prototype.toLowerCase` is modelled as ASCII lowercasing (it agrees
with JS on every string relevant here, in particular on the case-insensitive
comparison against `"x402"` and on ASCII header names), and the
`localeCompare`-based header comparator is modelled as code-unit comparison of
the lowercased names, which coincides with the root collation on the ASCII
header names this protocol uses.
-/

namespace X402

/-- A JavaScript/JSON value.  Objects are association lists in own-property
enumeration order; arrays preserve order. -/
inductive JSValue where
  | null
  | bool (b : Bool)
  | num (n : Int)
  | str (s : String)
  | arr (elems : List JSValue)
  | obj (fields : List (String × JSValue))
deriving Repr

namespace JSValue

mutual
/-- Structural equality test for `JSValue` (JSON deep equality, order-sensitive
on object fields, matching Lean structural equality). -/
def beq : JSValue → JSValue → Bool
  | .null, .null => true
  | .bool a, .bool b => a == b
  | .num a, .num b => a == b
  | .str a, .str b => a == b
  | .arr xs, .arr ys => beqList xs ys
  | .obj xs, .obj ys => beqFields xs ys
  | _, _ => false

/-- Elementwise `beq` on lists of values. -/
def beqList : List JSValue → List JSValue → Bool
  | [], [] => true
  | x :: xs, y :: ys => beq x y && beqList xs ys
  | _, _ => false

/-- Elementwise `beq` on object field lists. -/
def beqFields : List (String × JSValue) → List (String × JSValue) → Bool
  | [], [] => true
  | (k, v) :: xs, (l, w) :: ys => k == l && beq v w && beqFields xs ys
  | _, _ => false
end

end JSValue

mutual
theorem JSValue.beq_iff_eq : ∀ a b : JSValue, JSValue.beq a b = true ↔ a = b
  | .null, b => by cases b <;> simp [JSValue.beq]
  | .bool x, b => by cases b <;> simp [JSValue.beq]
  | .num x, b => by cases b <;> simp [JSValue.beq]
  | .str x, b => by cases b <;> simp [JSValue.beq]
  | .arr xs, b => by
      cases b with
      | arr ys => simpa [JSValue.beq] using JSValue.beqList_iff_eq xs ys
      | _ => simp [JSValue.beq]
  | .obj xs, b => by
      cases b with
      | obj ys => simpa [JSValue.beq] using JSValue.beqFields_iff_eq xs ys
      | _ => simp [JSValue.beq]

theorem JSValue.beqList_iff_eq : ∀ xs ys : List JSValue, JSValue.beqList xs ys = true ↔ xs = ys
  | [], ys => by cases ys <;> simp [JSValue.beqList]
  | x :: xs, ys => by
      cases ys with
      | nil => simp [JSValue.beqList]
      | cons y ys =>
          simp [JSValue.beqList, JSValue.beq_iff_eq x y, JSValue.beqList_iff_eq xs ys]

theorem JSValue.beqFields_iff_eq :
    ∀ xs ys : List (String × JSValue), JSValue.beqFields xs ys = true ↔ xs = ys
  | [], ys => by cases ys <;> simp [JSValue.beqFields]
  | (k, v) :: xs, ys => by
      cases ys with
      | nil => simp [JSValue.beqFields]
      | cons p ys =>
          obtain ⟨l, w⟩ := p
          simp [JSValue.beqFields, JSValue.beq_iff_eq v w, JSValue.beqFields_iff_eq xs ys,
            and_assoc]
end

instance : DecidableEq JSValue := fun a b =>
  decidable_of_iff (JSValue.beq a b = true) (JSValue.beq_iff_eq a b)

/-! ## JavaScript string primitives -/

/-- ASCII lowercasing of a character, modelling `String.prototype.toLowerCase`
on the strings relevant to this protocol. -/
def lowerChar (c : Char) : Char :=
  if 'A' ≤ c ∧ c ≤ 'Z' then Char.ofNat (c.toNat + 32) else c

/-- `s.toLowerCase()` (ASCII model). -/
def jsToLower (s : String) : String := String.mk (s.data.map lowerChar)

/-- The UTF-16 code units of a character (one unit for BMP scalars, a surrogate
pair above `U+FFFF`). -/
def charUnits (c : Char) : List Nat :=
  if c.toNat < 0x10000 then [c.toNat]
  else [0xD800 + (c.toNat - 0x10000) / 0x400, 0xDC00 + (c.toNat - 0x10000) % 0x400]

/-- The UTF-16 code units of a string: JS string comparison and default
`Array.prototype.sort` order are lexicographic on these. -/
def utf16Units (s : String) : List Nat := s.data.flatMap charUnits

/-- Lexicographic `≤` on lists of naturals. -/
def lexLe : List Nat → List Nat → Bool
  | [], _ => true
  | _ :: _, [] => false
  | a :: as', b :: bs' => if a < b then true else if b < a then false else lexLe as' bs'

/-- JS string order (`<`/`sort()` on strings): lexicographic on UTF-16 code
units. -/
def jsStrLe (a b : String) : Bool := lexLe (utf16Units a) (utf16Units b)

/-- The header comparator of `buildAadFromTransport`:
`a.header.toLowerCase().localeCompare(b.header.toLowerCase())`, modelled as
code-unit comparison of the lowercased names (they agree on ASCII names). -/
def headerNameLe (a b : String) : Bool := jsStrLe (jsToLower a) (jsToLower b)

/-- Whether a string is a canonical ECMAScript array index: a canonical decimal
numeral `n` with `0 ≤ n < 2^32 - 1` (no leading zeros except `"0"`). -/
def isArrayIndex (s : String) : Bool :=
  s.data ≠ [] && s.data.all (fun c => 48 ≤ c.toNat ∧ c.toNat ≤ 57) &&
    (s.data.head? ≠ some '0' || s.data = ['0']) &&
    s.data.foldl (fun acc c => acc * 10 + (c.toNat - 48)) 0 < 4294967295

/-- The numeric value of an (all-digit) string. -/
def arrayIndexVal (s : String) : Nat :=
  s.data.foldl (fun acc c => acc * 10 + (c.toNat - 48)) 0

/-! ## JavaScript object own-property semantics

ECMAScript enumerates own properties with array-index keys first, in ascending
numeric order, followed by the remaining string keys in insertion order.
`jsObjInsert` models `o[k] = v` on such an enumeration-ordered list: an
existing key is overwritten in place; a new array-index key is inserted in
numeric position inside the index prefix; any other new key is appended. -/

/-- Insert a new array-index key into the (ascending) index prefix. -/
def insertIdx {α : Type} (k : String) (v : α) : List (String × α) → List (String × α)
  | [] => [(k, v)]
  | (k0, v0) :: rest =>
      if isArrayIndex k0 && arrayIndexVal k0 < arrayIndexVal k then
        (k0, v0) :: insertIdx k v rest
      else (k, v) :: (k0, v0) :: rest

/-- `o[k] = v` on an enumeration-ordered association list. -/
def jsObjInsert {α : Type} (kvs : List (String × α)) (k : String) (v : α) :
    List (String × α) :=
  if kvs.any (fun p => p.1 = k) then
    kvs.map (fun p => if p.1 = k then (k, v) else p)
  else if isArrayIndex k then insertIdx k v kvs
  else kvs ++ [(k, v)]

/-- Property lookup `o[k]` (first occurrence; JS objects have unique keys). -/
def jsObjLookup {α : Type} (kvs : List (String × α)) (k : String) : Option α :=
  (kvs.find? (fun p => p.1 = k)).map (·.2)

/-- The `in` operator: whether `k` is a key of the object. -/
def jsObjHas {α : Type} (kvs : List (String × α)) (k : String) : Bool :=
  kvs.any (fun p => p.1 = k)

/-! ## `deepCanonicalize` (from `aad.ts`)

```js
function deepCanonicalize(value) {
  if (value === null || typeof value !== "object") return value;
  if (Array.isArray(value)) return value.map(deepCanonicalize);
  const keys = Object.keys(value).sort();
  const out = \x7b\x7d;
  for (const k of keys) out[k] = deepCanonicalize(value[k]);
  return out;
}
```
`Object.keys(value).sort()` sorts by UTF-16 code-unit order; the rebuilt
object's enumeration order then follows the array-index-first rule. -/

/-- One step of the rebuild loop: `out[k] = deepCanonicalize(value[k])`, with
the canonicalized values already supplied as a lookup list. -/
def rebuildStep (vals : List (String × JSValue)) (acc : List (String × JSValue))
    (k : String) : List (String × JSValue) :=
  match jsObjLookup vals k with
  | some v => jsObjInsert acc k v
  | none => acc

mutual
/-- `deepCanonicalize` from `aad.ts`: recursively sorts object keys (JS
`sort()`, i.e. code-unit order) and rebuilds through JS property insertion. -/
def deepCanonicalize : JSValue → JSValue
  | .null => .null
  | .bool b => .bool b
  | .num n => .num n
  | .str s => .str s
  | .arr xs => .arr (deepCanonList xs)
  | .obj kvs =>
      let canon := deepCanonFields kvs
      let sortedKeys := (kvs.map (·.1)).mergeSort jsStrLe
      .obj (sortedKeys.foldl (rebuildStep canon) [])

/-- `value.map(deepCanonicalize)` on arrays. -/
def deepCanonList : List JSValue → List JSValue
  | [] => []
  | x :: xs => deepCanonicalize x :: deepCanonList xs

/-- Canonicalized values of an object's fields (keys unchanged, in place). -/
def deepCanonFields : List (String × JSValue) → List (String × JSValue)
  | [] => []
  | (k, v) :: kvs => (k, deepCanonicalize v) :: deepCanonFields kvs
end

/-! ## `JSON.stringify` -/

/-- The lowercase hexadecimal digit for `n % 16`. -/
def hexDigit (n : Nat) : Char :=
  if n < 10 then Char.ofNat (48 + n) else Char.ofNat (97 + (n - 10))

/-- JSON escaping of one character (ECMAScript `QuoteJSONString`): `"`, `\`,
the shorthand control escapes, and `\u00xx` for the remaining C0 controls. -/
def escChar (c : Char) : List Char :=
  if c = '"' then ['\\', '"']
  else if c = '\\' then ['\\', '\\']
  else if c = Char.ofNat 8 then ['\\', 'b']
  else if c = Char.ofNat 9 then ['\\', 't']
  else if c = Char.ofNat 10 then ['\\', 'n']
  else if c = Char.ofNat 12 then ['\\', 'f']
  else if c = Char.ofNat 13 then ['\\', 'r']
  else if c.toNat < 0x20 then
    ['\\', 'u', '0', '0', hexDigit (c.toNat / 16), hexDigit (c.toNat % 16)]
  else [c]

/-- A JSON string literal (quotes plus escaped body) as characters. -/
def quoteStr (s : String) : List Char :=
  '"' :: (s.data.flatMap escChar ++ ['"'])

/-- Decimal digits of `n`, most significant first, prepended to `acc`. -/
def natChars (n : Nat) (acc : List Char) : List Char :=
  if n < 10 then Char.ofNat (48 + n) :: acc
  else natChars (n / 10) (Char.ofNat (48 + n % 10) :: acc)
decreasing_by exact Nat.div_lt_self (by omega) (by omega)

/-- The decimal rendering of an integer (JS `Number` formatting of integral
values in the safe range). -/
def intChars (i : Int) : List Char :=
  (if i < 0 then ['-'] else []) ++ natChars i.natAbs []

mutual
/-- `JSON.stringify(v)` as a character list: no whitespace, object fields in
enumeration order, standard string escaping. -/
def stringifyL : JSValue → List Char
  | .null => "null".data
  | .bool true => "true".data
  | .bool false => "false".data
  | .num n => intChars n
  | .str s => quoteStr s
  | .arr xs => '[' :: (stringifyElems xs ++ [']'])
  | .obj kvs => '{' :: (stringifyFields kvs ++ ['}'])

/-- Comma-separated renderings of array elements. -/
def stringifyElems : List JSValue → List Char
  | [] => []
  | [x] => stringifyL x
  | x :: y :: xs => stringifyL x ++ ',' :: stringifyElems (y :: xs)

/-- Comma-separated renderings of object members. -/
def stringifyFields : List (String × JSValue) → List Char
  | [] => []
  | [(k, v)] => quoteStr k ++ ':' :: stringifyL v
  | (k, v) :: p :: kvs => quoteStr k ++ ':' :: stringifyL v ++ ',' :: stringifyFields (p :: kvs)
end

/-- `JSON.stringify(v)` as a string. -/
def stringify (v : JSValue) : String := String.mk (stringifyL v)

/-- `canonicalJson` / `synthesizePaymentHeaderValue`:
`JSON.stringify(deepCanonicalize(v))`. -/
def canonicalJson (v : JSValue) : String := stringify (deepCanonicalize v)

/-! ## UTF-8 (`TextEncoder` / `Buffer.toString("utf8")`) -/

/-- UTF-8 encoding of one scalar value. -/
def encChar (c : Char) : List Nat :=
  let n := c.toNat
  if n < 0x80 then [n]
  else if n < 0x800 then [0xC0 + n / 64, 0x80 + n % 64]
  else if n < 0x10000 then [0xE0 + n / 4096, 0x80 + n / 64 % 64, 0x80 + n % 64]
  else [0xF0 + n / 0x40000, 0x80 + n / 4096 % 64, 0x80 + n / 64 % 64, 0x80 + n % 64]

/-- `new TextEncoder().encode(s)`: the UTF-8 bytes of `s`. -/
def utf8Encode (s : String) : List Nat := s.data.flatMap encChar

/-- One UTF-8 decoding step: the scalar encoded at a lead byte `b0` with
continuation bytes drawn from `rest`, and the number of continuation bytes
consumed.  Specified on valid encodings. -/
def utf8Step (b0 : Nat) (rest : List Nat) : Char × Nat :=
  if b0 < 0x80 then (Char.ofNat b0, 0)
  else if b0 < 0xE0 then
    match rest with
    | b1 :: _ => (Char.ofNat ((b0 - 0xC0) * 64 + (b1 - 0x80)), 1)
    | [] => (Char.ofNat 0, 0)
  else if b0 < 0xF0 then
    match rest with
    | b1 :: b2 :: _ => (Char.ofNat ((b0 - 0xE0) * 4096 + (b1 - 0x80) * 64 + (b2 - 0x80)), 2)
    | _ => (Char.ofNat 0, rest.length)
  else
    match rest with
    | b1 :: b2 :: b3 :: _ =>
        (Char.ofNat ((b0 - 0xF0) * 0x40000 + (b1 - 0x80) * 4096 + (b2 - 0x80) * 64
          + (b3 - 0x80)), 3)
    | _ => (Char.ofNat 0, rest.length)

/-- UTF-8 decoding (`Buffer.from(bytes).toString("utf8")`), specified on valid
encodings; byte sequences outside the valid range decode to unspecified
characters (the code never reaches them in the properties below). -/
def utf8DecodeL : List Nat → List Char
  | [] => []
  | b0 :: rest =>
      let s := utf8Step b0 rest
      s.1 :: utf8DecodeL (rest.drop s.2)
termination_by bs => bs.length
decreasing_by
  simp only [List.length_cons, List.length_drop]
  omega

/-- UTF-8 decoding to a string. -/
def utf8Decode (bs : List Nat) : String := String.mk (utf8DecodeL bs)

/-! ## base64url without padding (`b64u` / `b64uToBytes` from `envelope.ts`) -/

/-- The base64url alphabet character for a 6-bit value. -/
def sixChar (n : Nat) : Char :=
  if n < 26 then Char.ofNat ('A'.toNat + n)
  else if n < 52 then Char.ofNat ('a'.toNat + (n - 26))
  else if n < 62 then Char.ofNat ('0'.toNat + (n - 52))
  else if n = 62 then '-'
  else '_'

/-- The 6-bit value of a base64url alphabet character. -/
def sixVal (c : Char) : Nat :=
  if 'A' ≤ c ∧ c ≤ 'Z' then c.toNat - 'A'.toNat
  else if 'a' ≤ c ∧ c ≤ 'z' then c.toNat - 'a'.toNat + 26
  else if '0' ≤ c ∧ c ≤ '9' then c.toNat - '0'.toNat + 52
  else if c = '-' then 62
  else 63

/-- base64url characters of a byte list (no padding). -/
def b64uChars : List Nat → List Char
  | a :: b :: c :: rest =>
      sixChar (a / 4) :: sixChar (a % 4 * 16 + b / 16) :: sixChar (b % 16 * 4 + c / 64) ::
        sixChar (c % 64) :: b64uChars rest
  | [a, b] => [sixChar (a / 4), sixChar (a % 4 * 16 + b / 16), sixChar (b % 16 * 4)]
  | [a] => [sixChar (a / 4), sixChar (a % 4 * 16)]
  | [] => []

/-- `b64u` from `envelope.ts`: base64url without padding. -/
def b64u (bytes : List Nat) : String := String.mk (b64uChars bytes)

/-- Decoding of base64url characters (on canonical, unpadded input). -/
def b64uDecChars : List Char → List Nat
  | c1 :: c2 :: c3 :: c4 :: rest =>
      (sixVal c1 * 4 + sixVal c2 / 16) :: (sixVal c2 % 16 * 16 + sixVal c3 / 4) ::
        (sixVal c3 % 4 * 64 + sixVal c4) :: b64uDecChars rest
  | [c1, c2, c3] => [sixVal c1 * 4 + sixVal c2 / 16, sixVal c2 % 16 * 16 + sixVal c3 / 4]
  | [c1, c2] => [sixVal c1 * 4 + sixVal c2 / 16]
  | _ => []

/-- `b64uToBytes` from `envelope.ts`, on canonical unpadded input. -/
def b64uToBytes (s : String) : List Nat := b64uDecChars s.data

/-! ## `String.prototype.split("|")` and `trim` -/

/-- `s.split("|")` on the character list: the pipe-separated pieces. -/
def splitPipe : List Char → List (List Char)
  | [] => [[]]
  | c :: rest =>
      if c = '|' then [] :: splitPipe rest
      else
        match splitPipe rest with
        | [] => [[c]]
        | s :: ss => (c :: s) :: ss

/-- JS whitespace for `trim` (the ASCII part; sufficient for this protocol). -/
def isJsWs (c : Char) : Bool := c = ' ' || c = '\t' || c = '\n' || c = '\r' || c = Char.ofNat 12

/-- `s.trim()`: strip leading and trailing whitespace. -/
def jsTrim (s : String) : String :=
  String.mk (((s.data.dropWhile isJsWs).reverse.dropWhile isJsWs).reverse)

/-! ## `JSON.parse`

Modelled on the canonical, whitespace-free JSON this codec produces (compact
documents with integer numerals); objects are rebuilt through JS property
definition (`jsObjInsert`), so parsed objects carry ECMAScript enumeration
order. -/

/-- The value of a hexadecimal digit character. -/
def hexVal (c : Char) : Option Nat :=
  if '0' ≤ c ∧ c ≤ '9' then some (c.toNat - '0'.toNat)
  else if 'a' ≤ c ∧ c ≤ 'f' then some (c.toNat - 'a'.toNat + 10)
  else if 'A' ≤ c ∧ c ≤ 'F' then some (c.toNat - 'A'.toNat + 10)
  else none

/-- The character named by a two-character JSON escape. -/
def unescChar (c : Char) : Option Char :=
  if c = '"' then some '"'
  else if c = '\\' then some '\\'
  else if c = '/' then some '/'
  else if c = 'b' then some (Char.ofNat 8)
  else if c = 'f' then some (Char.ofNat 12)
  else if c = 'n' then some (Char.ofNat 10)
  else if c = 'r' then some (Char.ofNat 13)
  else if c = 't' then some (Char.ofNat 9)
  else none

/-- Parse a JSON string body after the opening quote.  Returns the decoded
characters and the remainder after the closing quote. -/
def parseStrAux (acc : List Char) (cs : List Char) : Option (List Char × List Char) :=
  match cs with
  | [] => none
  | '"' :: rest => some (acc.reverse, rest)
  | '\\' :: 'u' :: a :: b :: c :: d :: rest =>
      match hexVal a, hexVal b, hexVal c, hexVal d with
      | some va, some vb, some vc, some vd =>
          let n := ((va * 16 + vb) * 16 + vc) * 16 + vd
          if 0xD800 ≤ n ∧ n < 0xE000 then none
          else parseStrAux (Char.ofNat n :: acc) rest
      | _, _, _, _ => none
  | '\\' :: e :: rest =>
      match unescChar e with
      | some ch => parseStrAux (ch :: acc) rest
      | none => none
  | c :: rest => if c.toNat < 0x20 then none else parseStrAux (c :: acc) rest
termination_by cs.length
decreasing_by all_goals simp_arith

/-- Decimal digit test. -/
def isDigitC (c : Char) : Bool := 48 ≤ c.toNat && c.toNat ≤ 57

/-- Split a leading digit run from the input. -/
def takeDigits : List Char → List Char × List Char
  | c :: cs =>
      if isDigitC c then
        let (ds, r) := takeDigits cs
        (c :: ds, r)
      else ([], c :: cs)
  | [] => ([], [])

/-- The numeric value of a digit run. -/
def digitsVal (ds : List Char) : Nat :=
  ds.foldl (fun acc c => acc * 10 + (c.toNat - 48)) 0

/-- Parse an integer numeral (the only number shape this codec emits). -/
def parseNum (cs : List Char) : Option (Int × List Char) :=
  if cs.head? = some '-' then
    match takeDigits cs.tail with
    | ([], _) => none
    | (ds, r') => some (-(digitsVal ds : Int), r')
  else
    match takeDigits cs with
    | ([], _) => none
    | (ds, r') => some ((digitsVal ds : Int), r')

/-- Rebuild a JS object from parsed members in text order: property definition
applies the enumeration-order insert. -/
def jsObjOfMembers (ms : List (String × JSValue)) : List (String × JSValue) :=
  ms.foldl (fun acc p => jsObjInsert acc p.1 p.2) []

mutual
/-- Parse one JSON value (fueled; `fuel` strictly above the document length
suffices). -/
def parseVal : Nat → List Char → Option (JSValue × List Char)
  | 0, _ => none
  | fuel + 1, cs =>
      match cs with
      | 'n' :: 'u' :: 'l' :: 'l' :: r => some (.null, r)
      | 't' :: 'r' :: 'u' :: 'e' :: r => some (.bool true, r)
      | 'f' :: 'a' :: 'l' :: 's' :: 'e' :: r => some (.bool false, r)
      | '"' :: r =>
          match parseStrAux [] r with
          | some (body, r') => some (.str (String.mk body), r')
          | none => none
      | '[' :: ']' :: r => some (.arr [], r)
      | '[' :: r =>
          match parseElems fuel r with
          | some (es, r') => some (.arr es, r')
          | none => none
      | '{' :: '}' :: r => some (.obj [], r)
      | '{' :: r =>
          match parseMembers fuel r with
          | some (ms, r') => some (.obj (jsObjOfMembers ms), r')
          | none => none
      | c :: r =>
          if c = '-' || isDigitC c then
            match parseNum (c :: r) with
            | some (n, r') => some (.num n, r')
            | none => none
          else none
      | [] => none

/-- Parse one or more comma-separated array elements up to `]`. -/
def parseElems : Nat → List Char → Option (List JSValue × List Char)
  | 0, _ => none
  | fuel + 1, cs =>
      match parseVal fuel cs with
      | none => none
      | some (v, r) =>
          match r with
          | ',' :: r' =>
              match parseElems fuel r' with
              | some (vs, r'') => some (v :: vs, r'')
              | none => none
          | ']' :: r' => some ([v], r')
          | _ => none

/-- Parse one or more comma-separated object members up to `}`. -/
def parseMembers : Nat → List Char → Option (List (String × JSValue) × List Char)
  | 0, _ => none
  | fuel + 1, cs =>
      match cs with
      | '"' :: r =>
          match parseStrAux [] r with
          | none => none
          | some (key, r1) =>
              match r1 with
              | ':' :: r2 =>
                  match parseVal fuel r2 with
                  | none => none
                  | some (v, r3) =>
                      match r3 with
                      | ',' :: r4 =>
                          match parseMembers fuel r4 with
                          | some (ms, r5) => some ((String.mk key, v) :: ms, r5)
                          | none => none
                      | '}' :: r4 => some ([(String.mk key, v)], r4)
                      | _ => none
              | _ => none
      | _ => none
end

/-- `JSON.parse(s)`: parse a complete document (`none` models a thrown
`SyntaxError`). -/
def jsonParse (s : String) : Option JSValue :=
  match parseVal (2 * s.data.length + 4) s.data with
  | some (v, []) => some v
  | _ => none

/-! ## Canonically ordered values

Values whose objects all carry distinct keys in ECMAScript enumeration order
(array-index keys first, strictly ascending).  `deepCanonicalize` always
produces such values, and `JSON.parse` is the identity on their renderings. -/

/-- Strictly ascending chain test. -/
def chainLt : List Nat → Bool
  | [] => true
  | [_] => true
  | a :: b :: t => a < b && chainLt (b :: t)

/-- Pairwise-distinct string list. -/
def distinctKeys : List String → Bool
  | [] => true
  | k :: t => t.all (fun l => l ≠ k) && distinctKeys t

/-- Key list in ECMAScript enumeration shape: an ascending array-index prefix,
then non-index keys, all distinct. -/
def enumOrdered (ks : List String) : Bool :=
  chainLt ((ks.takeWhile isArrayIndex).map arrayIndexVal) &&
    (ks.dropWhile isArrayIndex).all (fun k => !isArrayIndex k) &&
    distinctKeys (ks.dropWhile isArrayIndex)

mutual
/-- Objects at every depth have distinct keys in enumeration order. -/
def isCanon : JSValue → Bool
  | .null => true
  | .bool _ => true
  | .num _ => true
  | .str _ => true
  | .arr xs => isCanonList xs
  | .obj kvs => enumOrdered (kvs.map (·.1)) && isCanonFields kvs

/-- `isCanon` on each element. -/
def isCanonList : List JSValue → Bool
  | [] => true
  | x :: xs => isCanon x && isCanonList xs

/-- `isCanon` on each field value. -/
def isCanonFields : List (String × JSValue) → Bool
  | [] => true
  | (_, v) :: kvs => isCanon v && isCanonFields kvs
end

/-! ## Error taxonomy (`errors.ts` message codes) -/

/-- The thrown error codes reachable from the embedded operations.
`DECRYPT_FAILED` models the exception libsodium raises on AEAD tag failure,
`JSON_SYNTAX` an uncaught `JSON.parse` `SyntaxError`, and `TYPE_ERROR` an
uncaught `TypeError` from a property access on a malformed AAD entry. -/
inductive Err where
  | NS_FORBIDDEN
  | AEAD_UNSUPPORTED
  | AEAD_MISMATCH
  | ECDH_LOW_ORDER
  | INVALID_ENVELOPE
  | NS_MISMATCH
  | KID_MISMATCH
  | AAD_MISMATCH
  | PUBLIC_KEY_NOT_IN_AAD
  | AEAD_LIMIT
  | STREAM_NONCE_PREFIX_LEN
  | OTHER_REQUEST_HTTP_CODE
  | OTHER_RESPONSE_402
  | PAYMENT_REQUIRED_CONTENT
  | PAYMENT_RESPONSE_CONTENT
  | PAYMENT_RESPONSE_HTTP_CODE
  | PAYMENT_HTTP_CODE
  | PAYMENT_PAYLOAD
  | DECRYPT_FAILED
  | JSON_SYNTAX
  | TYPE_ERROR
deriving DecidableEq, Repr

/-! ## Keys (`keys.ts`) -/

/-- An OKP JWK (`keys.ts`). -/
structure OkpJwk where
  kty : String
  crv : String
  x : String
  d : Option String
  kid : Option String
  use : Option String
deriving DecidableEq, Repr

/-- Whether every entry of a byte list is zero (`isAllZero`). -/
def isAllZero (bytes : List Nat) : Bool := bytes.all (· = 0)

/-- `jwkToPublicKeyBytes`: validate the JWK shape and decode `x`. -/
def jwkToPublicKeyBytes (jwk : OkpJwk) : Except Err (List Nat) :=
  if jwk.kty ≠ "OKP" ∨ jwk.crv ≠ "X25519" ∨ jwk.x = "" then .error .INVALID_ENVELOPE
  else .ok (b64uToBytes jwk.x)

/-- `jwkToPrivateKeyBytes`: require `d` (a falsy `d`, absent or empty, is
rejected) and decode it. -/
def jwkToPrivateKeyBytes (jwk : OkpJwk) : Except Err (List Nat) :=
  match jwk.d with
  | none => .error .INVALID_ENVELOPE
  | some d => if d = "" then .error .INVALID_ENVELOPE else .ok (b64uToBytes d)

/-! ## Extensions registry (`extensions.ts`) -/

/-- `APPROVED_EXTENSION_HEADERS`. -/
def APPROVED_EXTENSION_HEADERS : List String :=
  ["X-402-Routing", "X-402-Limits", "X-402-Acceptable", "X-402-Metadata", "X-402-Security"]

/-- `isApprovedExtensionHeader`: case-insensitive membership in the registry. -/
def isApprovedExtensionHeader (header : String) : Bool :=
  APPROVED_EXTENSION_HEADERS.any (fun h => jsToLower h = jsToLower header)

/-- `synthesizePaymentHeaderValue` (`payment.ts`): compact canonical JSON. -/
def synthesizePaymentHeaderValue (p : JSValue) : String := stringify (deepCanonicalize p)

/-! ## Transport model (`x402SecureTransport.ts`) -/

/-- A `HeaderEntry` (`constants.ts`): `{ header: string, value: any }`. -/
structure HeaderEntry where
  header : String
  value : JSValue
deriving DecidableEq, Repr

/-- The five transport types. -/
inductive TransportType where
  | PAYMENT
  | PAYMENT_RESPONSE
  | PAYMENT_REQUIRED
  | OTHER_REQUEST
  | OTHER_RESPONSE
deriving DecidableEq, Repr

/-- The normalized state an `x402SecureTransport` exposes through its
getters. -/
structure Transport where
  headerCore : Option HeaderEntry
  body : List (String × JSValue)
  extensions : List HeaderEntry
  httpResponseCode : Option Int
deriving DecidableEq, Repr

/-- The `x402SecureTransport` constructor.  `content` is typed as an object
(`CONTENT_OBJECT` is unreachable for typed callers); the PAYMENT_REQUIRED
coercion warning is diagnostic only. -/
def x402SecureTransportNew (ty : TransportType) (content : List (String × JSValue))
    (httpResponseCode : Option Int) (extensions : List HeaderEntry) : Except Err Transport :=
  match ty with
  | .OTHER_REQUEST =>
      if httpResponseCode ≠ none then .error .OTHER_REQUEST_HTTP_CODE
      else .ok ⟨none, content, extensions, none⟩
  | .OTHER_RESPONSE =>
      if httpResponseCode = some 402 then .error .OTHER_RESPONSE_402
      else .ok ⟨none, content, extensions, httpResponseCode⟩
  | .PAYMENT_REQUIRED =>
      if content = [] then .error .PAYMENT_REQUIRED_CONTENT
      else .ok ⟨none, content, extensions, some 402⟩
  | .PAYMENT_RESPONSE =>
      if content = [] then .error .PAYMENT_RESPONSE_CONTENT
      else if httpResponseCode ≠ none ∧ httpResponseCode ≠ some 200 then
        .error .PAYMENT_RESPONSE_HTTP_CODE
      else .ok ⟨some ⟨"X-PAYMENT-RESPONSE", .obj content⟩, [], extensions, some 200⟩
  | .PAYMENT =>
      if httpResponseCode ≠ none then .error .PAYMENT_HTTP_CODE
      else if ¬ jsObjHas content "payload" then .error .PAYMENT_PAYLOAD
      else .ok ⟨some ⟨"X-PAYMENT", .obj content⟩, [], extensions, none⟩

/-! ## AAD builder (`buildAadFromTransport`, `aad.ts` v2) -/

/-- The output triple of `buildAadFromTransport`. -/
structure AadOut where
  aadBytes : List Nat
  headersNormalized : List HeaderEntry
  bodyNormalized : List (String × JSValue)
deriving DecidableEq, Repr

/-- The canonicalized field list of an object (the object branch of
`deepCanonicalize`). -/
def deepCanonObj (kvs : List (String × JSValue)) : List (String × JSValue) :=
  match deepCanonicalize (.obj kvs) with
  | .obj out => out
  | _ => []

/-- The JSON text of a normalized header entry list (`JSON.stringify` of the
array of `{header, value}` records, in that insertion order). -/
def headersJsonOf (hs : List HeaderEntry) : String :=
  stringify (.arr (hs.map fun h => .obj [("header", .str h.header), ("value", h.value)]))

/-- `buildAadFromTransport(namespace, headers, body)`: reject a forbidden
namespace, normalize header entries verbatim (values deep-canonicalized), sort
by lowercased name, canonicalize the body, and assemble
`ns|v1|headersJson|bodyJson` as UTF-8 bytes. -/
def buildAadFromTransport (nspace : String) (headers : List HeaderEntry)
    (body : List (String × JSValue)) : Except Err AadOut :=
  if nspace = "" ∨ jsToLower nspace = "x402" then .error .NS_FORBIDDEN
  else
    let headersNormalized :=
      (headers.map fun h => (⟨h.header, deepCanonicalize h.value⟩ : HeaderEntry)).mergeSort
        (fun a b => headerNameLe a.header b.header)
    let bodyNormalized := deepCanonObj body
    let headersJson := headersJsonOf headersNormalized
    let bodyJson := stringify (.obj bodyNormalized)
    let full := nspace ++ "|v1|" ++ headersJson ++ "|" ++ bodyJson
    .ok ⟨utf8Encode full, headersNormalized, bodyNormalized⟩

/-! ## HKDF (`hkdfSha256` in `envelope.ts`) and the crypto collaborators -/

/-- The external cryptographic collaborators (libsodium, Node `createHmac`):
explicit parameters of the embedding, over byte lists. -/
structure Crypto where
  scalarmult : List Nat → List Nat → List Nat
  scalarmultBase : List Nat → List Nat
  aeadEnc : List Nat → List Nat → List Nat → List Nat → List Nat
  aeadDec : List Nat → List Nat → List Nat → List Nat → Option (List Nat)
  hmac : List Nat → List Nat → List Nat

/-- The state of `hkdfSha256`'s expansion loop after `i` iterations:
`(t, okm)`. -/
def hkdfBlocks (hmac : List Nat → List Nat → List Nat) (prk info : List Nat) :
    Nat → List Nat × List Nat
  | 0 => ([], [])
  | i + 1 =>
      let (t, okm) := hkdfBlocks hmac prk info i
      let h := hmac prk (t ++ info ++ [i + 1])
      (h, okm ++ h)

/-- `hkdfSha256(ikm, info, length)` from `envelope.ts`: extract with a 32-byte
zero salt, then the counter-block expansion loop, truncated to `length`. -/
def hkdfSha256 (hmac : List Nat → List Nat → List Nat) (ikm info : List Nat)
    (length : Nat) : List Nat :=
  let salt := List.replicate 32 0
  let prk := hmac salt ikm
  let n := (length + 31) / 32
  ((hkdfBlocks hmac prk info n).2).take length

/-! ## Envelope codec (`envelope.ts`, transport-based seal/open) -/

/-- The envelope wire record.  All fields are strings as on the wire; `open`
never reads `typ`, `suite`, `kem` or `kdf`. -/
structure Envelope where
  typ : String
  ver : String
  suite : Option String
  ns : String
  kid : String
  kem : String
  kdf : String
  aead : String
  enc : String
  aad : String
  ct : String
deriving DecidableEq, Repr

/-- `makeEntitiesPublic`: `"all" | "*" | string[]`. -/
inductive MakePub where
  | all
  | star
  | names (l : List String)
deriving DecidableEq, Repr

/-- The arguments of `seal` (transport form). -/
structure SealArgs where
  nspace : String
  kem : String
  kdf : String
  aead : String
  kid : String
  recipientPublicJwk : OkpJwk
  transport : Transport
  makeEntitiesPublic : Option MakePub

/-- The ephemeral key pair `crypto_kx_keypair()` produced for this seal (an
explicit input of the embedding: the source draws it from the CSPRNG or a test
seed). -/
structure EphKeys where
  pk : List Nat
  sk : List Nat

/-- The result of `seal`. -/
structure SealOut where
  envelope : Envelope
  publicHeaders : Option (List (String × String))
  publicBody : Option (List (String × JSValue))
deriving DecidableEq, Repr

/-- ASCII uppercasing, modelling `toUpperCase` on header names. -/
def upperChar (c : Char) : Char :=
  if 'a' ≤ c ∧ c ≤ 'z' then Char.ofNat (c.toNat - 32) else c

/-- `s.toUpperCase()` (ASCII model). -/
def jsToUpper (s : String) : String := String.mk (s.data.map upperChar)

/-- The selection function of `seal`: `"all"`/`"*"` keeps everything, a list
keeps case-insensitive matches. -/
def selectNames (makePub : MakePub) (all : List String) : List String :=
  match makePub with
  | .all => all
  | .star => all
  | .names l => all.filter (fun k => l.any (fun s => jsToLower s = jsToLower k))

/-- `seal` from `envelope.ts` (transport form; `seal` is a Lean keyword, hence
the name): AEAD gate, transport getters, AAD build, plaintext = canonical body
JSON, X25519 + HKDF + AEAD, envelope assembly, then the sidecar projection. -/
def sealEnvelope (C : Crypto) (a : SealArgs) (eph : EphKeys) : Except Err SealOut :=
  if a.aead ≠ "CHACHA20-POLY1305" then .error .AEAD_UNSUPPORTED
  else
    let core := a.transport.headerCore
    let exts := a.transport.extensions
    let body := a.transport.body
    let httpResponseCode := a.transport.httpResponseCode
    let headers := (match core with | some c => [c] | none => []) ++ exts
    match buildAadFromTransport a.nspace headers body with
    | .error e => .error e
    | .ok r =>
        let plaintext := utf8Encode (stringify (.obj r.bodyNormalized))
        match jwkToPublicKeyBytes a.recipientPublicJwk with
        | .error e => .error e
        | .ok recipientPub =>
            if isAllZero recipientPub then .error .ECDH_LOW_ORDER
            else
              let shared := C.scalarmult eph.sk recipientPub
              if isAllZero shared then .error .ECDH_LOW_ORDER
              else
                let info := utf8Encode ("x402-hpke:v1|KDF=" ++ a.kdf ++ "|AEAD=" ++ a.aead ++
                  "|ns=" ++ a.nspace ++ "|enc=" ++ b64u eph.pk ++ "|pkR=" ++ b64u recipientPub)
                let okm := hkdfSha256 C.hmac shared info 44
                let key := okm.take 32
                let nonce := okm.drop 32
                let ct := C.aeadEnc key nonce plaintext r.aadBytes
                let envelope : Envelope :=
                  ⟨"hpke-envelope", "1", some "X25519-HKDF-SHA256-CHACHA20POLY1305", a.nspace,
                    a.kid, a.kem, a.kdf, a.aead, b64u eph.pk, b64u r.aadBytes, b64u ct⟩
                match a.makeEntitiesPublic with
                | none => .ok ⟨envelope, none, none⟩
                | some makePub =>
                    let headerNames := r.headersNormalized.map (·.header)
                    let headerNames :=
                      if httpResponseCode = some 402 then
                        headerNames.filter (fun h =>
                          jsToUpper h ≠ "X-PAYMENT" ∧ jsToUpper h ≠ "X-PAYMENT-RESPONSE")
                      else headerNames
                    let headerAllow := selectNames makePub headerNames
                    let bodyKeys := r.bodyNormalized.map (·.1)
                    let bodyAllow := selectNames makePub bodyKeys
                    let publicHeaders := headerAllow.foldl (fun acc hn =>
                      match r.headersNormalized.find?
                          (fun h => jsToLower h.header = jsToLower hn) with
                      | none => acc
                      | some found =>
                          jsObjInsert acc found.header
                            (synthesizePaymentHeaderValue found.value)) []
                    let publicBody := bodyAllow.foldl (fun acc bk =>
                      if jsObjHas r.bodyNormalized bk then
                        jsObjInsert acc bk ((jsObjLookup r.bodyNormalized bk).getD .null)
                      else acc) []
                    let hasHeaders := publicHeaders ≠ []
                    let hasBody := publicBody ≠ []
                    if ¬ hasHeaders ∧ ¬ hasBody then .ok ⟨envelope, none, none⟩
                    else
                      .ok ⟨envelope, if hasHeaders then some publicHeaders else none,
                        if hasBody then some publicBody else none⟩

/-- The arguments of `open`. -/
structure OpenArgs where
  nspace : String
  kem : String
  kdf : String
  aead : String
  expectedKid : Option String
  recipientPrivateJwk : OkpJwk
  envelope : Envelope
  publicHeaders : Option (List (String × String))
  publicJson : Option (List (String × String))
  publicBody : Option (List (String × JSValue))

/-- The result of `open` (v2 fields plus the legacy compatibility fields). -/
structure OpenResult where
  plaintext : List Nat
  body : Option JSValue
  headers : Option JSValue
  x402 : Option JSValue
  request : Option JSValue
  response : Option JSValue
  extensions : Option JSValue
deriving DecidableEq, Repr

/-- `h.header` as a string, when `h` is an object whose `header` field is a
string (`none` models the `TypeError` a property access on anything else
raises inside the `find` callbacks). -/
def headerFieldStr (h : JSValue) : Option String :=
  match h with
  | .obj kvs =>
      match jsObjLookup kvs "header" with
      | some (.str s) => some s
      | _ => none
  | _ => none

/-- `headers.find(h => h.header.toLowerCase() === k.toLowerCase())` over the
parsed AAD header array: scans in order, raising `TYPE_ERROR` on a malformed
entry. -/
def findAadHeader (hs : List JSValue) (kLower : String) : Except Err (Option JSValue) :=
  match hs with
  | [] => .ok none
  | h :: t =>
      match headerFieldStr h with
      | none => .error .TYPE_ERROR
      | some name =>
          if jsToLower name = kLower then .ok (some h) else findAadHeader t kLower

/-- The v2 sidecar-header verification loop of `open`: each supplied entry must
match an AAD header by case-insensitive name, and its trimmed value must equal
the synthesized canonical JSON byte-for-byte. -/
def verifySidecarHeaders (hs : List JSValue) :
    List (String × String) → Except Err Unit
  | [] => .ok ()
  | (k, v) :: rest =>
      match findAadHeader hs (jsToLower k) with
      | .error e => .error e
      | .ok none => .error .PUBLIC_KEY_NOT_IN_AAD
      | .ok (some h) =>
          match h with
          | .obj kvs =>
              match jsObjLookup kvs "value" with
              | none => .error .TYPE_ERROR
              | some hv =>
                  let expect := synthesizePaymentHeaderValue hv
                  let got := jsTrim v
                  if utf8Encode expect ≠ utf8Encode got then .error .AAD_MISMATCH
                  else verifySidecarHeaders hs rest
          | _ => .error .TYPE_ERROR

/-- The v2 sidecar-body verification loop of `open`: each supplied key must be
present in the AAD body, compared by the raw `JSON.stringify` of both sides. -/
def verifySidecarBody (body : List (String × JSValue)) :
    List (String × JSValue) → Except Err Unit
  | [] => .ok ()
  | (k, v) :: rest =>
      if ¬ jsObjHas body k then .error .PUBLIC_KEY_NOT_IN_AAD
      else
        let expectStr := stringify ((jsObjLookup body k).getD .null)
        let gotStr := stringify v
        if utf8Encode expectStr ≠ utf8Encode gotStr then .error .AAD_MISMATCH
        else verifySidecarBody body rest

/-- The legacy `findHeader` helper: look a name up in the sidecar map
case-insensitively and trim the value. -/
def legacyFindHeader (sidecar : List (String × String)) (k : String) : Option String :=
  (sidecar.find? (fun p => jsToLower p.1 = jsToLower k)).map (fun p => jsTrim p.2)

/-- Legacy core-header check: when the sidecar carries a (truthy) value for
this core header name and the AAD x402 record matches the canonical name,
compare against the synthesized payload. -/
def legacyCheckCore (sidecarVal : Option String) (x402 : Option JSValue)
    (canonName : String) : Except Err Unit :=
  match sidecarVal with
  | none => .ok ()
  | some s =>
      if s = "" then .ok ()
      else
        match x402 with
        | none => .ok ()
        | some xv =>
            match xv with
            | .obj kvs =>
                if jsObjLookup kvs "header" = some (.str canonName) then
                  match jsObjLookup kvs "payload" with
                  | none => .error .TYPE_ERROR
                  | some p =>
                      if utf8Encode (synthesizePaymentHeaderValue p) ≠ utf8Encode s then
                        .error .AAD_MISMATCH
                      else .ok ()
                else .ok ()
            | _ => .ok ()

/-- The legacy extension verification loop over the sidecar keys. -/
def legacyCheckExts (sidecar : List (String × String)) (extList : List JSValue) :
    List (String × String) → Except Err Unit
  | [] => .ok ()
  | (k, _) :: rest =>
      if ¬ isApprovedExtensionHeader k then legacyCheckExts sidecar extList rest
      else
        match findAadHeader extList (jsToLower k) with
        | .error e => .error e
        | .ok none => .error .PUBLIC_KEY_NOT_IN_AAD
        | .ok (some e) =>
            match e with
            | .obj kvs =>
                match jsObjLookup kvs "payload" with
                | none => .error .TYPE_ERROR
                | some p =>
                    let expect := synthesizePaymentHeaderValue p
                    let got := ((sidecar.find? (fun q => q.1 = k)).map (·.2)).getD ""
                    if utf8Encode expect ≠ utf8Encode (jsTrim got) then .error .AAD_MISMATCH
                    else legacyCheckExts sidecar extList rest
            | _ => .error .TYPE_ERROR

/-- The legacy request-classification key list. -/
def legacyRequestKeys : List String :=
  ["action", "userId", "params", "resource", "get", "post"]

/-- `open` from `envelope.ts` (transport form; `open` is a Lean keyword, hence
the name): envelope checks, KEM/KDF mirror, AEAD decrypt, plaintext
re-normalization, AAD split and parse (v2 and legacy branches), sidecar
verification. -/
def openEnvelope (C : Crypto) (a : OpenArgs) : Except Err OpenResult :=
  if a.envelope.ver ≠ "1" ∨ jsToLower a.envelope.ns = "x402" then .error .INVALID_ENVELOPE
  else if a.envelope.aead ≠ a.aead then .error .AEAD_MISMATCH
  else if a.aead ≠ "CHACHA20-POLY1305" then .error .AEAD_UNSUPPORTED
  else if (match a.expectedKid with
      | some k => k ≠ "" && a.envelope.kid ≠ k
      | none => false : Bool) then .error .KID_MISMATCH
  else if a.nspace ≠ a.envelope.ns then .error .NS_MISMATCH
  else
    let aadBytes := b64uToBytes a.envelope.aad
    let sidecarHeaders := a.publicHeaders.orElse (fun _ => a.publicJson)
    let sidecarBody := a.publicBody
    match jwkToPrivateKeyBytes a.recipientPrivateJwk with
    | .error e => .error e
    | .ok sk =>
        let ephPub := b64uToBytes a.envelope.enc
        if isAllZero ephPub then .error .ECDH_LOW_ORDER
        else
          let shared := C.scalarmult sk ephPub
          if isAllZero shared then .error .ECDH_LOW_ORDER
          else
            let pkR := C.scalarmultBase sk
            let info := utf8Encode ("x402-hpke:v1|KDF=" ++ a.kdf ++ "|AEAD=" ++ a.aead ++
              "|ns=" ++ a.envelope.ns ++ "|enc=" ++ a.envelope.enc ++ "|pkR=" ++ b64u pkR)
            let okm := hkdfSha256 C.hmac shared info 44
            let key := okm.take 32
            let nonce := okm.drop 32
            let ct := b64uToBytes a.envelope.ct
            match C.aeadDec key nonce ct aadBytes with
            | none => .error .DECRYPT_FAILED
            | some pt0 =>
                let pt := match jsonParse (utf8Decode pt0) with
                  | some j => utf8Encode (stringify j)
                  | none => pt0
                let aadStr := utf8Decode aadBytes
                let parts := (splitPipe aadStr.data).map String.mk
                if parts.length < 4 then .error .INVALID_ENVELOPE
                else
                  let seg2 := (parts.get? 2).getD ""
                  let seg3 := (parts.get? 3).getD ""
                  match jsonParse seg2 with
                  | some (.arr hs) =>
                      -- V2 branch: seg2 is the canonical headers array.
                      let bodyObj : Option (List (String × JSValue)) :=
                        match jsonParse seg3 with
                        | some (.obj kvs) => some kvs
                        | _ => none
                      let hdrCheck := match sidecarHeaders with
                        | some sh => verifySidecarHeaders hs sh
                        | none => .ok ()
                      match hdrCheck with
                      | .error e => .error e
                      | .ok _ =>
                          let bodyCheck := match sidecarBody, bodyObj with
                            | some sb, some kvs => verifySidecarBody kvs sb
                            | _, _ => .ok ()
                          match bodyCheck with
                          | .error e => .error e
                          | .ok _ =>
                              .ok ⟨pt, bodyObj.map .obj, some (.arr hs), none, none, none, none⟩
                  | probe =>
                      -- Legacy branch: seg2 is `primary_json`, seg3 `extensions_json`.
                      match probe with
                      | none =>
                          match jsonParse seg2 with
                          | none => .error .JSON_SYNTAX
                          | some _ => .error .JSON_SYNTAX
                      | some primary =>
                          let extsParsed : Except Err (Option JSValue) :=
                            if seg3 ≠ "" then
                              match jsonParse seg3 with
                              | none => .error .JSON_SYNTAX
                              | some e => .ok (some e)
                            else .ok none
                          match extsParsed with
                          | .error e => .error e
                          | .ok extensions =>
                              let x402 : Option JSValue :=
                                match primary with
                                | .obj kvs => if jsObjHas kvs "header" then some primary else none
                                | _ => none
                              let request : Option JSValue :=
                                match primary with
                                | .obj kvs =>
                                    if ¬ jsObjHas kvs "header" ∧
                                        (kvs.map (·.1)).any (fun k => legacyRequestKeys.contains k)
                                      then some primary else none
                                | _ => none
                              let response : Option JSValue :=
                                if x402 = none ∧ request = none then some primary else none
                              let sidecarCheck : Except Err Unit :=
                                match sidecarHeaders with
                                | none => .ok ()
                                | some sh =>
                                    match legacyCheckCore (legacyFindHeader sh "X-PAYMENT") x402
                                        "X-Payment" with
                                    | .error e => .error e
                                    | .ok _ =>
                                        match legacyCheckCore
                                            (legacyFindHeader sh "X-PAYMENT-RESPONSE") x402
                                            "X-Payment-Response" with
                                        | .error e => .error e
                                        | .ok _ =>
                                            let extList := match extensions with
                                              | some (.arr l) => l
                                              | _ => []
                                            legacyCheckExts sh extList sh
                              match sidecarCheck with
                              | .error e => .error e
                              | .ok _ =>
                                  .ok ⟨pt, some primary, extensions, x402, request, response,
                                    extensions⟩

/-! ## Streaming chunk codec and limiter (`streaming.ts`) -/

/-- `le64(seq)`: eight little-endian bytes. -/
def le64 (n : Nat) : List Nat :=
  [n % 256, n / 256 % 256, n / 256 ^ 2 % 256, n / 256 ^ 3 % 256, n / 256 ^ 4 % 256,
    n / 256 ^ 5 % 256, n / 256 ^ 6 % 256, n / 256 ^ 7 % 256]

/-- `sealChunkXChaCha`: 16-byte prefix check, 24-byte nonce `prefix ‖ le64(seq)`,
then the XChaCha20-Poly1305 encryption (an external primitive, passed in as
`xEnc : key → nonce → plaintext → aad? → ciphertext`). -/
def sealChunkXChaCha (xEnc : List Nat → List Nat → List Nat → Option (List Nat) → List Nat)
    (key pfx16 : List Nat) (seq : Nat) (plaintext : List Nat) (aad : Option (List Nat)) :
    Except Err (List Nat) :=
  if pfx16.length ≠ 16 then .error .STREAM_NONCE_PREFIX_LEN
  else .ok (xEnc key (pfx16 ++ le64 seq) plaintext aad)

/-- The state of an `XChaChaStreamLimiter`. -/
structure StreamLimiter where
  key : List Nat
  pfx16 : List Nat
  maxChunks : Nat
  maxBytes : Nat
  chunksUsed : Nat
  bytesUsed : Nat
deriving DecidableEq, Repr

/-- The `XChaChaStreamLimiter` constructor: 16-byte prefix check and the
implementation-chosen defaults `maxChunks = 1,000,000`,
`maxBytes = 1,000,000,000`. -/
def limiterNew (key pfx16 : List Nat) (maxChunks maxBytes : Option Nat) :
    Except Err StreamLimiter :=
  if pfx16.length ≠ 16 then .error .STREAM_NONCE_PREFIX_LEN
  else .ok ⟨key, pfx16, maxChunks.getD 1000000, maxBytes.getD 1000000000, 0, 0⟩

/-- `XChaChaStreamLimiter.seal`: enforce the chunk and byte limits before
encrypting, then encrypt and update the counters.  The state is passed
explicitly; a thrown error leaves it unchanged. -/
def limiterSeal (xEnc : List Nat → List Nat → List Nat → Option (List Nat) → List Nat)
    (st : StreamLimiter) (seq : Nat) (chunk : List Nat) (aad : Option (List Nat)) :
    Except Err (List Nat) × StreamLimiter :=
  if st.chunksUsed + 1 > st.maxChunks then (.error .AEAD_LIMIT, st)
  else if st.bytesUsed + chunk.length > st.maxBytes then (.error .AEAD_LIMIT, st)
  else
    match sealChunkXChaCha xEnc st.key st.pfx16 seq chunk aad with
    | .error e => (.error e, st)
    | .ok ct =>
        (.ok ct,
          { st with chunksUsed := st.chunksUsed + 1, bytesUsed := st.bytesUsed + chunk.length })

/-! ## UTF-8 round-trip -/

theorem utf8DecodeL_encChar (c : Char) (rest : List Nat) :
    utf8DecodeL (encChar c ++ rest) = c :: utf8DecodeL rest := by
  have hofn : Char.ofNat c.toNat = c := Char.ofNat_toNat c
  by_cases h1 : c.toNat < 0x80
  · simp [encChar, h1, utf8DecodeL, utf8Step, hofn]
  · by_cases h2 : c.toNat < 0x800
    · have e1 : ¬ (0xC0 + c.toNat / 64 < 0x80) := by omega
      have e2 : 0xC0 + c.toNat / 64 < 0xE0 := by
        have : c.toNat / 64 < 32 := by omega
        omega
      have hE : encChar c ++ rest = (0xC0 + c.toNat / 64) :: (0x80 + c.toNat % 64) :: rest := by
        simp [encChar, h1, h2]
      rw [hE, utf8DecodeL]
      have hstep : utf8Step (0xC0 + c.toNat / 64) ((0x80 + c.toNat % 64) :: rest) = (c, 1) := by
        rw [utf8Step, if_neg e1, if_pos e2]
        have h4 : c.toNat / 64 * 64 + c.toNat % 64 = c.toNat := by omega
        simp [h4, hofn]
      rw [hstep]
      simp
    · by_cases h3 : c.toNat < 0x10000
      · have e1 : ¬ (0xE0 + c.toNat / 4096 < 0x80) := by omega
        have e2 : ¬ (0xE0 + c.toNat / 4096 < 0xE0) := by omega
        have e3 : 0xE0 + c.toNat / 4096 < 0xF0 := by
          have : c.toNat / 4096 < 16 := by omega
          omega
        have hE : encChar c ++ rest = (0xE0 + c.toNat / 4096) :: (0x80 + c.toNat / 64 % 64) ::
            (0x80 + c.toNat % 64) :: rest := by
          simp [encChar, h1, h2, h3]
        rw [hE, utf8DecodeL]
        have hstep : utf8Step (0xE0 + c.toNat / 4096)
            ((0x80 + c.toNat / 64 % 64) :: (0x80 + c.toNat % 64) :: rest) = (c, 2) := by
          rw [utf8Step, if_neg e1, if_neg e2, if_pos e3]
          have h4 : c.toNat / 4096 * 4096 + c.toNat / 64 % 64 * 64 + c.toNat % 64
              = c.toNat := by omega
          simp [h4, hofn]
        rw [hstep]
        simp
      · have e1 : ¬ (0xF0 + c.toNat / 0x40000 < 0x80) := by omega
        have e2 : ¬ (0xF0 + c.toNat / 0x40000 < 0xE0) := by omega
        have e3 : ¬ (0xF0 + c.toNat / 0x40000 < 0xF0) := by omega
        have hE : encChar c ++ rest = (0xF0 + c.toNat / 0x40000) ::
            (0x80 + c.toNat / 4096 % 64) :: (0x80 + c.toNat / 64 % 64) ::
            (0x80 + c.toNat % 64) :: rest := by
          simp [encChar, h1, h2, h3]
        rw [hE, utf8DecodeL]
        have hstep : utf8Step (0xF0 + c.toNat / 0x40000)
            ((0x80 + c.toNat / 4096 % 64) :: (0x80 + c.toNat / 64 % 64) ::
              (0x80 + c.toNat % 64) :: rest) = (c, 3) := by
          rw [utf8Step, if_neg e1, if_neg e2, if_neg e3]
          have h4 : c.toNat / 0x40000 * 0x40000 + c.toNat / 4096 % 64 * 4096 +
              c.toNat / 64 % 64 * 64 + c.toNat % 64 = c.toNat := by omega
          simp [h4, hofn]
        rw [hstep]
        simp

theorem utf8DecodeL_flatMap (cs : List Char) (rest : List Nat) :
    utf8DecodeL (cs.flatMap encChar ++ rest) = cs ++ utf8DecodeL rest := by
  induction cs with
  | nil => simp
  | cons c t ih => simp [List.flatMap_cons, List.append_assoc, utf8DecodeL_encChar, ih]

/-- UTF-8 decoding inverts encoding. -/
theorem utf8Decode_encode (s : String) : utf8Decode (utf8Encode s) = s := by
  have h := utf8DecodeL_flatMap s.data []
  simp only [List.append_nil] at h
  simp only [utf8Decode, utf8Encode, h]
  cases s
  simp [utf8DecodeL]

/-- Bytes produced by the UTF-8 encoder are bytes. -/
theorem utf8Encode_lt_256 (s : String) : ∀ b ∈ utf8Encode s, b < 256 := by
  intro b hb
  simp only [utf8Encode, List.mem_flatMap] at hb
  obtain ⟨c, -, hbc⟩ := hb
  have hlt : c.toNat < 0x110000 := by
    have hv := c.valid
    have he : c.toNat = c.val.toNat := rfl
    rcases hv with h | ⟨ha, hb2⟩
    · omega
    · omega
  by_cases h1 : c.toNat < 0x80
  · simp [encChar, h1] at hbc
    omega
  · by_cases h2 : c.toNat < 0x800
    · simp [encChar, h1, h2] at hbc
      rcases hbc with h | h <;> omega
    · by_cases h3 : c.toNat < 0x10000
      · simp [encChar, h1, h2, h3] at hbc
        rcases hbc with h | h | h <;> omega
      · simp [encChar, h1, h2, h3] at hbc
        rcases hbc with h | h | h | h <;> omega

/-! ## base64url round-trip -/

theorem sixVal_sixChar : ∀ v, v < 64 → sixVal (sixChar v) = v := by decide

theorem b64uDec_enc : ∀ l : List Nat, (∀ b ∈ l, b < 256) → b64uDecChars (b64uChars l) = l
  | [], _ => rfl
  | [a], h => by
      have ha : a < 256 := h a (by simp)
      rw [b64uChars, b64uDecChars, sixVal_sixChar _ (by omega), sixVal_sixChar _ (by omega)]
      have : a / 4 * 4 + a % 4 * 16 / 16 = a := by omega
      rw [this]
  | [a, b], h => by
      have ha : a < 256 := h a (by simp)
      have hb : b < 256 := h b (by simp)
      rw [b64uChars, b64uDecChars, sixVal_sixChar _ (by omega), sixVal_sixChar _ (by omega),
        sixVal_sixChar _ (by omega)]
      have h1 : a / 4 * 4 + (a % 4 * 16 + b / 16) / 16 = a := by omega
      have h2 : (a % 4 * 16 + b / 16) % 16 * 16 + b % 16 * 4 / 4 = b := by omega
      rw [h1, h2]
  | a :: b :: c :: rest, h => by
      have ha : a < 256 := h a (by simp)
      have hb : b < 256 := h b (by simp)
      have hc : c < 256 := h c (by simp)
      have ih := b64uDec_enc rest (fun x hx => h x (by simp [hx]))
      rw [b64uChars, b64uDecChars, sixVal_sixChar _ (by omega), sixVal_sixChar _ (by omega),
        sixVal_sixChar _ (by omega), sixVal_sixChar _ (by omega), ih]
      have h1 : a / 4 * 4 + (a % 4 * 16 + b / 16) / 16 = a := by omega
      have h2 : (a % 4 * 16 + b / 16) % 16 * 16 + (b % 16 * 4 + c / 64) / 4 = b := by omega
      have h3 : (b % 16 * 4 + c / 64) % 4 * 64 + c % 64 = c := by omega
      rw [h1, h2, h3]

/-- `b64uToBytes` inverts `b64u` on byte lists. -/
theorem b64uToBytes_b64u (l : List Nat) (h : ∀ b ∈ l, b < 256) : b64uToBytes (b64u l) = l :=
  b64uDec_enc l h

/-! ## `split("|")` structure -/

theorem splitPipe_ne_nil (cs : List Char) : splitPipe cs ≠ [] := by
  cases cs with
  | nil => simp [splitPipe]
  | cons c t =>
      by_cases h : c = '|'
      · simp [splitPipe, h]
      · simp only [splitPipe, if_neg h]
        cases splitPipe t <;> simp

theorem splitPipe_append (cs : List Char) (h : '|' ∉ cs) (rest : List Char) :
    splitPipe (cs ++ '|' :: rest) = cs :: splitPipe rest := by
  induction cs with
  | nil => simp [splitPipe]
  | cons c t ih =>
      have hc : c ≠ '|' := by
        intro hc
        exact h (hc ▸ List.mem_cons_self c t)
      have ht : '|' ∉ t := fun hm => h (List.mem_cons_of_mem c hm)
      simp only [List.cons_append, splitPipe, if_neg hc]
      rw [show t.append ('|' :: rest) = t ++ '|' :: rest from rfl, ih ht]

theorem splitPipe_no_pipe (cs : List Char) (h : '|' ∉ cs) : splitPipe cs = [cs] := by
  induction cs with
  | nil => simp [splitPipe]
  | cons c t ih =>
      have hc : c ≠ '|' := by
        intro hc
        exact h (hc ▸ List.mem_cons_self c t)
      have ht : '|' ∉ t := fun hm => h (List.mem_cons_of_mem c hm)
      simp only [splitPipe, if_neg hc, ih ht]

/-! ## Decimal digit rendering: inversion lemmas -/

theorem digitChar_spec : ∀ k, k < 10 →
    isDigitC (Char.ofNat (48 + k)) = true ∧ (Char.ofNat (48 + k)).toNat = 48 + k := by
  decide

theorem natChars_acc (n : Nat) : ∀ acc : List Char, natChars n acc = natChars n [] ++ acc := by
  induction n using Nat.strongRecOn with
  | _ n ih =>
      intro acc
      rw [natChars.eq_def n acc, natChars.eq_def n []]
      by_cases h : n < 10
      · simp [h]
      · simp only [if_neg h]
        rw [ih (n / 10) (Nat.div_lt_self (by omega) (by omega)),
          ih (n / 10) (Nat.div_lt_self (by omega) (by omega)) [_]]
        simp

theorem natChars_unfold (n : Nat) :
    natChars n [] = (if n < 10 then [] else natChars (n / 10) [])
      ++ [Char.ofNat (48 + n % 10)] := by
  rw [natChars.eq_def]
  by_cases h : n < 10
  · simp only [if_pos h, List.nil_append]
    have : n % 10 = n := Nat.mod_eq_of_lt h
    rw [this]
  · simp only [if_neg h]
    exact natChars_acc (n / 10) [_]


theorem natChars_ne_nil (n : Nat) : natChars n [] ≠ [] := by
  rw [natChars_unfold]
  simp

theorem natChars_digits (n : Nat) : ∀ c ∈ natChars n [], isDigitC c = true := by
  induction n using Nat.strongRecOn with
  | _ n ih =>
      rw [natChars_unfold]
      intro c hc
      rw [List.mem_append] at hc
      cases hc with
      | inr h =>
          rw [List.mem_singleton] at h
          subst h
          exact (digitChar_spec _ (Nat.mod_lt _ (by omega))).1
      | inl h =>
          by_cases h10 : n < 10
          · simp [h10] at h
          · exact ih (n / 10) (Nat.div_lt_self (by omega) (by omega)) c (by simpa [h10] using h)

theorem digitsVal_natChars (n : Nat) : digitsVal (natChars n []) = n := by
  induction n using Nat.strongRecOn with
  | _ n ih =>
      rw [natChars_unfold]
      by_cases h : n < 10
      · simp only [if_pos h, List.nil_append, digitsVal, List.foldl_cons, List.foldl_nil]
        rw [(digitChar_spec _ (Nat.mod_lt _ (by omega))).2]
        omega
      · simp only [if_neg h, digitsVal, List.foldl_append, List.foldl_cons, List.foldl_nil]
        have ihv := ih (n / 10) (Nat.div_lt_self (by omega) (by omega))
        rw [digitsVal] at ihv
        rw [ihv, (digitChar_spec _ (Nat.mod_lt _ (by omega))).2]
        omega

/-! ## `takeDigits` behavior -/

/-- The remainder after a numeral cannot extend it: empty or non-digit-headed. -/
def noDigitHead : List Char → Bool
  | [] => true
  | c :: _ => !isDigitC c

theorem takeDigits_stop (cs : List Char) (h : noDigitHead cs = true) :
    takeDigits cs = ([], cs) := by
  match cs with
  | [] => rfl
  | c :: t =>
      simp only [noDigitHead, Bool.not_eq_true'] at h
      simp [takeDigits, h]

theorem takeDigits_run (ds : List Char) (hds : ∀ c ∈ ds, isDigitC c = true)
    (rest : List Char) (hrest : noDigitHead rest = true) :
    takeDigits (ds ++ rest) = (ds, rest) := by
  induction ds with
  | nil => simpa using takeDigits_stop rest hrest
  | cons c t ih =>
      have hc : isDigitC c = true := hds c (by simp)
      have ht := ih (fun x hx => hds x (by simp [hx]))
      simp [takeDigits, hc, ht]

theorem natChars_head (n : Nat) :
    ∃ c t, natChars n [] = c :: t ∧ isDigitC c = true := by
  match h : natChars n [] with
  | [] => exact absurd h (natChars_ne_nil n)
  | c :: t =>
      refine ⟨c, t, rfl, ?_⟩
      exact natChars_digits n c (h ▸ List.mem_cons_self ..)

theorem digit_ne_minus {c : Char} (h : isDigitC c = true) : c ≠ '-' := by
  intro he
  subst he
  exact absurd h (by decide)

/-- `parseNum` inverts integer rendering whenever the remainder cannot extend
the numeral. -/
theorem parseNum_intChars (n : Int) (rest : List Char) (hrest : noDigitHead rest = true) :
    parseNum (intChars n ++ rest) = some (n, rest) := by
  obtain ⟨c, t, hct, hc⟩ := natChars_head n.natAbs
  by_cases hn : n < 0
  · have harg : intChars n ++ rest = '-' :: (natChars n.natAbs [] ++ rest) := by
      simp [intChars, hn]
    rw [harg, parseNum]
    simp only [List.head?_cons, List.tail_cons, if_pos rfl]
    rw [takeDigits_run _ (natChars_digits _) _ hrest, hct]
    simp only []
    rw [← hct, digitsVal_natChars]
    have he : -(n.natAbs : Int) = n := by omega
    rw [he]
    simp
  · have harg : intChars n ++ rest = natChars n.natAbs [] ++ rest := by
      simp [intChars, hn]
    have hhead : (intChars n ++ rest).head? ≠ some '-' := by
      rw [harg, hct]
      simp only [List.cons_append, List.head?_cons, ne_eq, Option.some.injEq]
      exact digit_ne_minus hc
    rw [parseNum, if_neg (by simpa using hhead)]
    rw [harg, takeDigits_run _ (natChars_digits _) _ hrest, hct]
    simp only []
    rw [← hct, digitsVal_natChars]
    have he : (n.natAbs : Int) = n := by omega
    rw [he]

/-! ## String escape round-trip -/

theorem hexVal_hexDigit : ∀ k, k < 16 → hexVal (hexDigit k) = some k := by decide

theorem parseStrAux_esc (c : Char) (acc rest : List Char) :
    parseStrAux acc (escChar c ++ rest) = parseStrAux (c :: acc) rest := by
  by_cases h1 : c = '"'
  · subst h1
    rw [show escChar '"' = ['\\', '"'] from by decide, List.cons_append, List.cons_append,
      List.nil_append, parseStrAux]
    simp [unescChar]
    all_goals (intro p q u w r2 hbad hr2; exact absurd hbad (by decide))
  · by_cases h2 : c = '\\'
    · subst h2
      rw [show escChar '\\' = ['\\', '\\'] from by decide, List.cons_append, List.cons_append,
        List.nil_append, parseStrAux]
      simp [unescChar]
      all_goals (intro p q u w r2 hbad hr2; exact absurd hbad (by decide))
    · by_cases h3 : c = Char.ofNat 8
      · subst h3
        rw [show escChar (Char.ofNat 8) = ['\\', 'b'] from by decide, List.cons_append,
          List.cons_append, List.nil_append, parseStrAux]
        simp [unescChar]
        all_goals (intro p q u w r2 hbad hr2; exact absurd hbad (by decide))
      · by_cases h4 : c = Char.ofNat 9
        · subst h4
          rw [show escChar (Char.ofNat 9) = ['\\', 't'] from by decide, List.cons_append,
            List.cons_append, List.nil_append, parseStrAux]
          simp [unescChar]
          all_goals (intro p q u w r2 hbad hr2; exact absurd hbad (by decide))
        · by_cases h5 : c = Char.ofNat 10
          · subst h5
            rw [show escChar (Char.ofNat 10) = ['\\', 'n'] from by decide, List.cons_append,
              List.cons_append, List.nil_append, parseStrAux]
            simp [unescChar]
            all_goals (intro p q u w r2 hbad hr2; exact absurd hbad (by decide))
          · by_cases h6 : c = Char.ofNat 12
            · subst h6
              rw [show escChar (Char.ofNat 12) = ['\\', 'f'] from by decide, List.cons_append,
                List.cons_append, List.nil_append, parseStrAux]
              simp [unescChar]
              all_goals (intro p q u w r2 hbad hr2; exact absurd hbad (by decide))
            · by_cases h7 : c = Char.ofNat 13
              · subst h7
                rw [show escChar (Char.ofNat 13) = ['\\', 'r'] from by decide, List.cons_append,
                  List.cons_append, List.nil_append, parseStrAux]
                simp [unescChar]
                all_goals (intro p q u w r2 hbad hr2; exact absurd hbad (by decide))
              · by_cases h8 : c.toNat < 0x20
                · have he : escChar c ++ rest = '\\' :: 'u' :: '0' :: '0' ::
                      hexDigit (c.toNat / 16) :: hexDigit (c.toNat % 16) :: rest := by
                    simp [escChar, h1, h2, h3, h4, h5, h6, h7, h8]
                  rw [he, parseStrAux]
                  rw [show hexVal '0' = some 0 from by decide,
                    hexVal_hexDigit (c.toNat / 16) (by omega),
                    hexVal_hexDigit (c.toNat % 16) (by omega)]
                  simp only []
                  have hval : ((0 * 16 + 0) * 16 + c.toNat / 16) * 16 + c.toNat % 16
                      = c.toNat := by omega
                  rw [hval]
                  have hsg : ¬ (0xD800 ≤ c.toNat ∧ c.toNat < 0xE000) := by omega
                  rw [if_neg hsg, Char.ofNat_toNat]
                · have he : escChar c ++ rest = c :: rest := by
                    simp [escChar, h1, h2, h3, h4, h5, h6, h7, h8]
                  rw [he, parseStrAux.eq_def]
                  simp [h1, h2, h8]

theorem parseStrAux_run (cs : List Char) : ∀ acc rest,
    parseStrAux acc (cs.flatMap escChar ++ '"' :: rest) = some (acc.reverse ++ cs, rest) := by
  induction cs with
  | nil =>
      intro acc rest
      simp [parseStrAux]
  | cons c t ih =>
      intro acc rest
      rw [List.flatMap_cons, List.append_assoc, parseStrAux_esc, ih]
      simp

/-! ## Parser branch selection on variable heads -/

theorem digit_enum (c : Char) (h : isDigitC c = true) :
    c = '0' ∨ c = '1' ∨ c = '2' ∨ c = '3' ∨ c = '4' ∨ c = '5' ∨ c = '6' ∨ c = '7' ∨
      c = '8' ∨ c = '9' := by
  have hofn := Char.ofNat_toNat c
  simp only [isDigitC, Bool.and_eq_true, decide_eq_true_eq] at h
  have he : c.toNat = 48 ∨ c.toNat = 49 ∨ c.toNat = 50 ∨ c.toNat = 51 ∨ c.toNat = 52 ∨
      c.toNat = 53 ∨ c.toNat = 54 ∨ c.toNat = 55 ∨ c.toNat = 56 ∨ c.toNat = 57 := by omega
  rcases he with h | h | h | h | h | h | h | h | h | h <;> rw [← hofn, h] <;> simp

theorem parseVal_digitHead (f : Nat) (c : Char) (r : List Char) (h : isDigitC c = true) :
    parseVal (f + 1) (c :: r) =
      (match parseNum (c :: r) with
       | some (n, r') => some (.num n, r')
       | none => none) := by
  rcases digit_enum c h with h | h | h | h | h | h | h | h | h | h <;> subst h <;>
    rw [parseVal] <;> all_goals (intros <;> simp_all)

theorem parseVal_minusHead (f : Nat) (r : List Char) :
    parseVal (f + 1) ('-' :: r) =
      (match parseNum ('-' :: r) with
       | some (n, r') => some (.num n, r')
       | none => none) := by
  rw [parseVal] <;> all_goals (intros <;> simp_all)

theorem parseVal_arrCons (f : Nat) (c : Char) (t : List Char) (hc : c ≠ ']') :
    parseVal (f + 1) ('[' :: c :: t) =
      (match parseElems f (c :: t) with
       | some (es, r') => some (.arr es, r')
       | none => none) := by
  rw [parseVal]
  all_goals intros
  all_goals simp_all

/-- Every rendered value is nonempty and never starts with `]`. -/
theorem stringify_head (v : JSValue) : ∃ c t, stringifyL v = c :: t ∧ c ≠ ']' := by
  cases v with
  | null => exact ⟨'n', _, rfl, by decide⟩
  | bool b => cases b with
      | true => exact ⟨'t', _, rfl, by decide⟩
      | false => exact ⟨'f', _, rfl, by decide⟩
  | str s => exact ⟨'"', _, rfl, by decide⟩
  | arr xs => exact ⟨'[', _, by rw [stringifyL], by decide⟩
  | obj kvs => exact ⟨'{', _, by rw [stringifyL], by decide⟩
  | num n =>
      by_cases hn : n < 0
      · refine ⟨'-', natChars n.natAbs [], ?_, by decide⟩
        rw [stringifyL]
        simp [intChars, hn]
      · obtain ⟨c, t, hct, hc⟩ := natChars_head n.natAbs
        refine ⟨c, t, ?_, ?_⟩
        · rw [stringifyL]
          simp [intChars, hn, hct]
        · intro he
          subst he
          exact absurd hc (by decide)

/-! ## Rebuilding enumeration-ordered objects is the identity -/

theorem chainLt_pairwise : ∀ l : List Nat, chainLt l = true → List.Pairwise (· < ·) l
  | [], _ => List.Pairwise.nil
  | [a], _ => by simp
  | a :: b :: t, h => by
      simp only [chainLt, Bool.and_eq_true, decide_eq_true_eq] at h
      have ih := chainLt_pairwise (b :: t) h.2
      refine List.Pairwise.cons ?_ ih
      intro x hx
      rcases List.mem_cons.mp hx with rfl | hx
      · exact h.1
      · have hb := (List.pairwise_cons.mp ih).1 x hx
        omega

theorem insertIdx_atEnd {α : Type} (k : String) (v : α) :
    ∀ pfx : List (String × α),
      (∀ p ∈ pfx, isArrayIndex p.1 = true ∧ arrayIndexVal p.1 < arrayIndexVal k) →
      insertIdx k v pfx = pfx ++ [(k, v)]
  | [], _ => rfl
  | (k0, v0) :: rest, h => by
      have h0 := h (k0, v0) (by simp)
      have hrest := insertIdx_atEnd k v rest (fun p hp => h p (by simp [hp]))
      rw [insertIdx, if_pos (by simp [h0.1, h0.2]), hrest]
      simp

theorem jsObjInsert_append_idx {α : Type} (pfx : List (String × α)) (k : String) (v : α)
    (hidx : isArrayIndex k = true)
    (h : ∀ p ∈ pfx, isArrayIndex p.1 = true ∧ arrayIndexVal p.1 < arrayIndexVal k) :
    jsObjInsert pfx k v = pfx ++ [(k, v)] := by
  have hnew : pfx.any (fun p => p.1 = k) = false := by
    rw [List.any_eq_false]
    intro p hp
    have hlt := (h p hp).2
    simp only [decide_eq_true_eq]
    intro he
    rw [he] at hlt
    omega
  rw [jsObjInsert, hnew]
  simp only [Bool.false_eq_true, if_false, hidx, if_true]
  exact insertIdx_atEnd k v pfx h

theorem jsObjInsert_append_str {α : Type} (pfx : List (String × α)) (k : String) (v : α)
    (hnidx : isArrayIndex k = false) (hnew : ∀ p ∈ pfx, p.1 ≠ k) :
    jsObjInsert pfx k v = pfx ++ [(k, v)] := by
  have hany : pfx.any (fun p => p.1 = k) = false := by
    rw [List.any_eq_false]
    intro p hp
    simpa using hnew p hp
  rw [jsObjInsert, hany]
  simp [hnidx]

/-- Phase A: folding inserts of ascending array-index keys appends in order. -/
theorem buildIdxPhase {α : Type} :
    ∀ (ints done : List (String × α)),
      (∀ p ∈ done ++ ints, isArrayIndex p.1 = true) →
      List.Pairwise (· < ·) ((done ++ ints).map (fun p => arrayIndexVal p.1)) →
      List.foldl (fun acc p => jsObjInsert acc p.1 p.2) done ints = done ++ ints
  | [], done, _, _ => by simp
  | (k, v) :: t, done, hidx, hpw => by
      have hins : jsObjInsert done k v = done ++ [(k, v)] := by
        refine jsObjInsert_append_idx done k v (hidx (k, v) (by simp)) ?_
        intro p hp
        refine ⟨hidx p (by simp [hp]), ?_⟩
        have := (List.pairwise_append.mp (by
          have : (done ++ (k, v) :: t).map (fun p => arrayIndexVal p.1)
              = done.map (fun p => arrayIndexVal p.1)
                ++ ((k, v) :: t).map (fun p => arrayIndexVal p.1) := by simp
          rw [this] at hpw
          exact hpw)).2.2
        exact this (arrayIndexVal p.1) (List.mem_map_of_mem _ hp)
          (arrayIndexVal k) (by simp)
      rw [List.foldl_cons, hins]
      have hre : done ++ [(k, v)] ++ t = done ++ (k, v) :: t := by simp
      rw [buildIdxPhase t (done ++ [(k, v)]) (by rw [hre]; exact hidx) (by rw [hre]; exact hpw),
        hre]

/-- Phase B: folding inserts of fresh non-index keys appends in order. -/
theorem buildStrPhase {α : Type} :
    ∀ (rest done : List (String × α)),
      (∀ p ∈ rest, isArrayIndex p.1 = false) →
      distinctKeys (rest.map (·.1)) = true →
      (∀ p ∈ done, ∀ q ∈ rest, p.1 ≠ q.1) →
      List.foldl (fun acc p => jsObjInsert acc p.1 p.2) done rest = done ++ rest
  | [], done, _, _, _ => by simp
  | (k, v) :: t, done, hnidx, hdk, hcross => by
      have hins : jsObjInsert done k v = done ++ [(k, v)] :=
        jsObjInsert_append_str done k v (hnidx (k, v) (by simp))
          (fun p hp => hcross p hp (k, v) (by simp))
      simp only [distinctKeys, List.map_cons, Bool.and_eq_true, List.all_eq_true,
        decide_eq_true_eq] at hdk
      rw [List.foldl_cons, hins]
      have hre : done ++ [(k, v)] ++ t = done ++ (k, v) :: t := by simp
      rw [buildStrPhase t (done ++ [(k, v)]) (fun p hp => hnidx p (by simp [hp])) hdk.2 ?_, hre]
      intro p hp q hq
      rcases List.mem_append.mp hp with hp | hp
      · exact hcross p hp q (by simp [hq])
      · rcases List.mem_singleton.mp hp with rfl
        simp only []
        intro he
        exact hdk.1 q.1 (List.mem_map_of_mem _ hq) he.symm

/-- Folding JS property definition over an enumeration-ordered association list
reproduces it: parsed canonical objects keep their field order. -/
theorem build_enumOrdered {α : Type} (kvs : List (String × α))
    (h : enumOrdered (kvs.map (·.1)) = true) :
    List.foldl (fun acc p => jsObjInsert acc p.1 p.2) [] kvs = kvs := by
  simp only [enumOrdered, Bool.and_eq_true, List.all_eq_true, Bool.not_eq_true',
    decide_eq_true_eq] at h
  obtain ⟨⟨h1, h2⟩, h3⟩ := h
  rw [List.takeWhile_map] at h1
  rw [List.dropWhile_map] at h2 h3
  have hsplit := List.takeWhile_append_dropWhile
    (fun p : String × α => isArrayIndex p.1) kvs
  set idxP := kvs.takeWhile (fun p : String × α => isArrayIndex p.1) with hidxP
  set tailP := kvs.dropWhile (fun p : String × α => isArrayIndex p.1) with htailP
  have hAll : ∀ p ∈ idxP, isArrayIndex p.1 = true := by
    intro p hp
    rw [hidxP] at hp
    simpa using List.mem_takeWhile_imp hp
  have hTail : ∀ p ∈ tailP, isArrayIndex p.1 = false := by
    intro p hp
    exact h2 p.1 (List.mem_map_of_mem _ hp)
  conv_lhs => rw [← hsplit]
  rw [List.foldl_append]
  rw [buildIdxPhase idxP [] (by simpa using hAll) (by
    simp only [List.nil_append]
    have hmm : (idxP.map fun p => arrayIndexVal p.1)
        = (idxP.map (·.1)).map arrayIndexVal := by
      simp [List.map_map]
    rw [hmm]
    exact chainLt_pairwise _ h1)]
  simp only [List.nil_append]
  rw [buildStrPhase tailP idxP hTail h3 ?_, hsplit]
  intro p hp q hq
  have hpi := hAll p hp
  have hqi := hTail q hq
  intro he
  rw [he] at hpi
  rw [hpi] at hqi
  exact absurd hqi (by simp)

/-- `jsObjOfMembers` is the identity on enumeration-ordered member lists. -/
theorem jsObjOfMembers_id (kvs : List (String × JSValue))
    (h : enumOrdered (kvs.map (·.1)) = true) : jsObjOfMembers kvs = kvs :=
  build_enumOrdered kvs h

/-! ## Order predicate bridges -/

theorem pairwise_chainLt : ∀ l : List Nat, List.Pairwise (· < ·) l → chainLt l = true
  | [], _ => rfl
  | [_], _ => rfl
  | a :: b :: t, h => by
      have h1 := (List.pairwise_cons.mp h).1 b (by simp)
      have h2 := (List.pairwise_cons.mp h).2
      simp only [chainLt, Bool.and_eq_true, decide_eq_true_eq]
      exact ⟨h1, pairwise_chainLt (b :: t) h2⟩

theorem distinctKeys_iff (l : List String) :
    distinctKeys l = true ↔ List.Pairwise (· ≠ ·) l := by
  induction l with
  | nil => simp [distinctKeys]
  | cons k t ih =>
      simp only [distinctKeys, Bool.and_eq_true, List.all_eq_true, decide_eq_true_eq,
        List.pairwise_cons, ih]
      constructor
      · rintro ⟨h1, h2⟩
        exact ⟨fun x hx he => h1 x hx (he.symm), h2⟩
      · rintro ⟨h1, h2⟩
        exact ⟨fun x hx he => h1 x hx (he.symm), h2⟩

/-- Strict lexicographic order on code-unit lists. -/
def lexLt : List Nat → List Nat → Bool
  | [], [] => false
  | [], _ :: _ => true
  | _ :: _, [] => false
  | a :: as', b :: bs' => if a < b then true else if b < a then false else lexLt as' bs'

/-- Strict JS string order: lexicographic on UTF-16 code units. -/
def jsStrLt (a b : String) : Bool := lexLt (utf16Units a) (utf16Units b)

theorem lexLt_of_le_ne : ∀ u v : List Nat, lexLe u v = true → u ≠ v → lexLt u v = true
  | [], [], _, hne => absurd rfl hne
  | [], _ :: _, _, _ => rfl
  | _ :: _, [], hle, _ => by simp [lexLe] at hle
  | a :: as', b :: bs', hle, hne => by
      simp only [lexLe] at hle
      simp only [lexLt]
      by_cases hab : a < b
      · simp [hab]
      · by_cases hba : b < a
        · simp [hba] at hle
          simp [hab] at hle
        · have : a = b := by omega
          subst this
          simp only [if_neg hab, if_neg hba]
          simp only [if_neg hab, if_neg hba] at hle
          refine lexLt_of_le_ne as' bs' hle ?_
          intro he
          exact hne (by rw [he])

/-! ## UTF-16 encoding is injective -/

theorem charUnits_ne_nil (c : Char) : charUnits c ≠ [] := by
  by_cases h : c.toNat < 0x10000 <;> simp [charUnits, h]

theorem charUnits_inj_append : ∀ (c d : Char) (r s : List Nat),
    charUnits c ++ r = charUnits d ++ s → c = d ∧ r = s := by
  intro c d r s h
  have hcv : c.toNat < 0xD800 ∨ (0xDFFF < c.toNat ∧ c.toNat < 0x110000) := by
    have := c.valid
    have he : c.toNat = c.val.toNat := rfl
    rcases this with h1 | h1
    · left
      omega
    · right
      omega
  have hdv : d.toNat < 0xD800 ∨ (0xDFFF < d.toNat ∧ d.toNat < 0x110000) := by
    have := d.valid
    have he : d.toNat = d.val.toNat := rfl
    rcases this with h1 | h1
    · left
      omega
    · right
      omega
  have hofc := Char.ofNat_toNat c
  have hofd := Char.ofNat_toNat d
  by_cases hc : c.toNat < 0x10000 <;> by_cases hd : d.toNat < 0x10000
  · simp only [charUnits, hc, hd, if_true, List.cons_append, List.nil_append,
      List.cons.injEq] at h
    refine ⟨?_, h.2⟩
    rw [← hofc, ← hofd, h.1]
  · simp only [charUnits, hc, hd, if_true, if_false, List.cons_append, List.nil_append,
      List.cons.injEq] at h
    have : d.toNat - 0x10000 < 0x100000 := by omega
    have hrange : 0xD800 + (d.toNat - 0x10000) / 0x400 < 0xE000 := by omega
    rcases hcv with h1 | h1
    · omega
    · omega
  · simp only [charUnits, hc, hd, if_true, if_false, List.cons_append, List.nil_append,
      List.cons.injEq] at h
    rcases hdv with h1 | h1
    · omega
    · omega
  · simp only [charUnits, hc, hd, if_false, List.cons_append, List.nil_append,
      List.cons.injEq] at h
    obtain ⟨h1, h2, h3⟩ := h
    refine ⟨?_, h3⟩
    have he : c.toNat = d.toNat := by omega
    rw [← hofc, ← hofd, he]

theorem utf16_flatMap_inj : ∀ (a b : List Char),
    a.flatMap charUnits = b.flatMap charUnits → a = b
  | [], [], _ => rfl
  | [], d :: t, h => by
      simp only [List.flatMap_nil, List.flatMap_cons] at h
      have := charUnits_ne_nil d
      cases hcu : charUnits d with
      | nil => exact absurd hcu this
      | cons x xs =>
          rw [hcu] at h
          simp at h
  | c :: t, [], h => by
      simp only [List.flatMap_nil, List.flatMap_cons] at h
      have := charUnits_ne_nil c
      cases hcu : charUnits c with
      | nil => exact absurd hcu this
      | cons x xs =>
          rw [hcu] at h
          simp at h
  | c :: t, d :: u, h => by
      simp only [List.flatMap_cons] at h
      obtain ⟨he, hr⟩ := charUnits_inj_append c d _ _ h
      rw [he, utf16_flatMap_inj t u hr]

theorem utf16Units_inj (a b : String) (h : utf16Units a = utf16Units b) : a = b := by
  have hd := utf16_flatMap_inj a.data b.data h
  cases a
  cases b
  simp only [] at hd
  rw [hd]

theorem jsStrLt_of_le_ne (a b : String) (hle : jsStrLe a b = true) (hne : a ≠ b) :
    jsStrLt a b = true := by
  refine lexLt_of_le_ne _ _ hle ?_
  intro he
  exact hne (utf16Units_inj a b he)

/-! ## Canonical decimal numerals are value-injective -/

theorem foldl_digits_ge (t : List Char) : ∀ acc : Nat,
    acc ≤ t.foldl (fun a c => a * 10 + (c.toNat - 48)) acc := by
  induction t with
  | nil => intro acc; simp
  | cons c t ih =>
      intro acc
      simp only [List.foldl_cons]
      have h1 : acc ≤ acc * 10 + (c.toNat - 48) := by omega
      exact le_trans h1 (ih _)

theorem digitsVal_pos (d0 : Char) (t : List Char) (h0 : isDigitC d0 = true)
    (h0nz : d0 ≠ '0') : 1 ≤ digitsVal (d0 :: t) := by
  simp only [isDigitC, Bool.and_eq_true, decide_eq_true_eq] at h0
  have hne : d0.toNat ≠ 48 := by
    intro he
    exact h0nz (by rw [← Char.ofNat_toNat d0, he])
  simp only [digitsVal, List.foldl_cons]
  have h1 : 1 ≤ 0 * 10 + (d0.toNat - 48) := by omega
  exact le_trans h1 (foldl_digits_ge t _)

theorem digits_repr : ∀ ds : List Char, ds ≠ [] → (∀ c ∈ ds, isDigitC c = true) →
    (ds.head? ≠ some '0' ∨ ds = ['0']) → natChars (digitsVal ds) [] = ds := by
  intro ds
  induction ds using List.reverseRecOn with
  | nil => intro h; exact absurd rfl h
  | append_singleton ds c ihr =>
      intro _ hdig hlz
      have hc : isDigitC c = true := hdig c (by simp)
      have hcn : 48 ≤ c.toNat ∧ c.toNat ≤ 57 := by
        simpa [isDigitC, Bool.and_eq_true, decide_eq_true_eq] using hc
      have hval : digitsVal (ds ++ [c]) = digitsVal ds * 10 + (c.toNat - 48) := by
        simp [digitsVal, List.foldl_append]
      rw [hval, natChars_unfold]
      cases hds : ds with
      | nil =>
          subst hds
          simp only [digitsVal, List.foldl_nil]
          have hlt : 0 * 10 + (c.toNat - 48) < 10 := by omega
          rw [if_pos hlt]
          have hm : (0 * 10 + (c.toNat - 48)) % 10 = c.toNat - 48 := by omega
          rw [hm]
          have : Char.ofNat (48 + (c.toNat - 48)) = c := by
            have harg : 48 + (c.toNat - 48) = c.toNat := by omega
            rw [harg, Char.ofNat_toNat]
          rw [this]
      | cons d0 t =>
          have hne0 : d0 ≠ '0' := by
            rcases hlz with h | h
            · intro he
              rw [hds] at h
              simp [he] at h
            · rw [hds] at h
              simp at h
          have hpos : 1 ≤ digitsVal (d0 :: t) :=
            digitsVal_pos d0 t (hdig d0 (by rw [hds]; simp)) hne0
          have hge : ¬ (digitsVal (d0 :: t) * 10 + (c.toNat - 48) < 10) := by omega
          rw [if_neg hge]
          have hdiv : (digitsVal (d0 :: t) * 10 + (c.toNat - 48)) / 10 = digitsVal (d0 :: t) := by
            omega
          have hmod : (digitsVal (d0 :: t) * 10 + (c.toNat - 48)) % 10 = c.toNat - 48 := by omega
          rw [hdiv, hmod]
          have hch : Char.ofNat (48 + (c.toNat - 48)) = c := by
            have harg : 48 + (c.toNat - 48) = c.toNat := by omega
            rw [harg, Char.ofNat_toNat]
          rw [hch]
          have ihds : natChars (digitsVal (d0 :: t)) [] = d0 :: t := by
            rw [← hds]
            refine ihr (by rw [hds]; simp) (fun x hx => hdig x (by simp [hx])) ?_
            left
            rw [hds]
            simpa using hne0
          rw [ihds]

/-- Two canonical array-index strings with equal numeric value are equal. -/
theorem arrayIndexVal_inj (a b : String) (ha : isArrayIndex a = true)
    (hb : isArrayIndex b = true) (h : arrayIndexVal a = arrayIndexVal b) : a = b := by
  simp only [isArrayIndex, Bool.and_eq_true, List.all_eq_true, decide_eq_true_eq,
    Bool.or_eq_true, ne_eq, Bool.not_eq_true', decide_eq_false_iff_not] at ha hb
  have hda : ∀ c ∈ a.data, isDigitC c = true := by
    intro c hc
    have := ha.1.1.2 c hc
    simp [isDigitC, Bool.and_eq_true, decide_eq_true_eq]
    omega
  have hdb : ∀ c ∈ b.data, isDigitC c = true := by
    intro c hc
    have := hb.1.1.2 c hc
    simp [isDigitC, Bool.and_eq_true, decide_eq_true_eq]
    omega
  have hva : digitsVal a.data = arrayIndexVal a := rfl
  have hvb : digitsVal b.data = arrayIndexVal b := rfl
  have hra := digits_repr a.data ha.1.1.1 hda (by
    rcases ha.1.2 with h1 | h1
    · left
      simpa using h1
    · right
      exact h1)
  have hrb := digits_repr b.data hb.1.1.1 hdb (by
    rcases hb.1.2 with h1 | h1
    · left
      simpa using h1
    · right
      exact h1)
  have : a.data = b.data := by
    rw [← hra, ← hrb, hva, hvb, h]
  cases a
  cases b
  simp only [] at this
  rw [this]

/-! ## Lexicographic order: transitivity and totality -/

theorem lexLe_trans : ∀ a b c : List Nat, lexLe a b = true → lexLe b c = true →
    lexLe a c = true
  | [], _, _, _, _ => rfl
  | _ :: _, [], _, h1, _ => by simp [lexLe] at h1
  | _ :: _, _ :: _, [], _, h2 => by simp [lexLe] at h2
  | a :: as', b :: bs', c :: cs', h1, h2 => by
      simp only [lexLe] at h1 h2 ⊢
      by_cases hab : a < b
      · by_cases hbc : b < c
        · have : a < c := by omega
          simp [this]
        · by_cases hcb : c < b
          · simp [hab, hbc, hcb] at h2
          · have hbec : b = c := by omega
            subst hbec
            simp [hab]
      · by_cases hba : b < a
        · simp [hab, hba] at h1
        · have haeb : a = b := by omega
          subst haeb
          have h1' : lexLe as' bs' = true := by simpa [hab, hba] using h1
          by_cases hac : a < c
          · simp [hac]
          · by_cases hca : c < a
            · simp [hac, hca] at h2
            · have h2' : lexLe bs' cs' = true := by simpa [hac, hca] using h2
              simpa [hac, hca] using lexLe_trans as' bs' cs' h1' h2'

theorem lexLe_total : ∀ a b : List Nat, (lexLe a b || lexLe b a) = true
  | [], _ => by simp [lexLe]
  | _ :: _, [] => by simp [lexLe]
  | a :: as', b :: bs' => by
      simp only [lexLe]
      by_cases hab : a < b
      · simp [hab]
      · by_cases hba : b < a
        · simp [hab, hba]
        · simpa [hab, hba] using lexLe_total as' bs'

theorem jsStrLe_trans (a b c : String) (h1 : jsStrLe a b = true) (h2 : jsStrLe b c = true) :
    jsStrLe a c = true := lexLe_trans _ _ _ h1 h2

theorem jsStrLe_total (a b : String) : (jsStrLe a b || jsStrLe b a) = true :=
  lexLe_total _ _

theorem headerNameLe_trans (a b c : String) (h1 : headerNameLe a b = true)
    (h2 : headerNameLe b c = true) : headerNameLe a c = true := lexLe_trans _ _ _ h1 h2

theorem headerNameLe_total (a b : String) : (headerNameLe a b || headerNameLe b a) = true :=
  lexLe_total _ _

/-! ## `insertIdx` as a sorted insert -/

theorem insertIdx_eq {α : Type} (k : String) (v : α) : ∀ l : List (String × α),
    insertIdx k v l =
      l.takeWhile (fun p => isArrayIndex p.1 && arrayIndexVal p.1 < arrayIndexVal k)
        ++ (k, v) ::
          l.dropWhile (fun p => isArrayIndex p.1 && arrayIndexVal p.1 < arrayIndexVal k)
  | [] => rfl
  | (k0, v0) :: rest => by
      by_cases h : isArrayIndex k0 && arrayIndexVal k0 < arrayIndexVal k
      · simp only [insertIdx, h, if_true, List.takeWhile_cons, List.dropWhile_cons,
          insertIdx_eq k v rest, List.cons_append]
      · simp only [insertIdx, h, if_false, List.takeWhile_cons, List.dropWhile_cons]
        simp only [Bool.not_eq_true] at h
        simp [h]

theorem takeWhile_append_stop {α : Type} (p : α → Bool) :
    ∀ (l1 l2 : List α), (l2 = [] ∨ ∃ x t, l2 = x :: t ∧ p x = false) →
      (l1 ++ l2).takeWhile p = l1.takeWhile p
  | [], l2, h => by
      rcases h with rfl | ⟨x, t, rfl, hx⟩
      · simp
      · simp [List.takeWhile_cons, hx]
  | a :: l1, l2, h => by
      by_cases ha : p a
      · simp only [List.cons_append, List.takeWhile_cons, ha, if_true,
          takeWhile_append_stop p l1 l2 h]
      · simp only [Bool.not_eq_true] at ha
        simp [List.takeWhile_cons, ha]

theorem dropWhile_append_stop {α : Type} (p : α → Bool) :
    ∀ (l1 l2 : List α), (l2 = [] ∨ ∃ x t, l2 = x :: t ∧ p x = false) →
      (l1 ++ l2).dropWhile p = l1.dropWhile p ++ l2
  | [], l2, h => by
      rcases h with rfl | ⟨x, t, rfl, hx⟩
      · simp
      · simp [List.dropWhile_cons, hx]
  | a :: l1, l2, h => by
      by_cases ha : p a
      · simp only [List.cons_append, List.dropWhile_cons, ha, if_true,
          dropWhile_append_stop p l1 l2 h]
      · simp only [Bool.not_eq_true] at ha
        simp [List.dropWhile_cons, ha]

/-! ## The `deepCanonicalize` object rebuild: shape characterization -/

theorem dropWhile_head_fails {α : Type} (p : α → Bool) : ∀ (l : List α) (x : α) (t : List α),
    l.dropWhile p = x :: t → p x = false
  | [], x, t, h => by simp [List.dropWhile] at h
  | a :: l, x, t, h => by
      by_cases ha : p a
      · rw [List.dropWhile_cons, if_pos (by simp [ha])] at h
        exact dropWhile_head_fails p l x t h
      · rw [List.dropWhile_cons, if_neg (by simp [ha])] at h
        cases h
        simpa using ha

theorem jsObjInsert_not_mem {α : Type} (l : List (String × α)) (k : String) (v : α)
    (hfresh : ∀ p ∈ l, p.1 ≠ k) :
    jsObjInsert l k v = if isArrayIndex k then insertIdx k v l else l ++ [(k, v)] := by
  have hany : l.any (fun p => decide (p.1 = k)) = false := by
    rw [List.any_eq_false]
    intro p hp
    simpa using hfresh p hp
  rw [jsObjInsert, hany]
  simp

/-- The invariant of the `deepCanonicalize` rebuild loop: inserting sorted,
fresh keys keeps the accumulator split into an ascending array-index prefix and
a string-ascending tail, with every entry's value drawn from the lookup list. -/
theorem rebuildFold (vals : List (String × JSValue)) :
    ∀ (ks : List String) (ints rest : List (String × JSValue)),
      List.Pairwise (fun a b => jsStrLe a b = true ∧ a ≠ b) ks →
      (∀ p ∈ ints, isArrayIndex p.1 = true) →
      List.Pairwise (· < ·) (ints.map (fun p => arrayIndexVal p.1)) →
      (∀ p ∈ rest, isArrayIndex p.1 = false) →
      List.Pairwise (fun p q : String × JSValue => jsStrLt p.1 q.1 = true) rest →
      (∀ p ∈ ints ++ rest, jsObjLookup vals p.1 = some p.2) →
      (∀ p ∈ ints ++ rest, ∀ k ∈ ks, p.1 ≠ k) →
      (∀ p ∈ rest, ∀ k ∈ ks, jsStrLe p.1 k = true) →
      ∃ ints' rest',
        List.foldl (rebuildStep vals) (ints ++ rest) ks = ints' ++ rest' ∧
        (∀ p ∈ ints', isArrayIndex p.1 = true) ∧
        List.Pairwise (· < ·) (ints'.map (fun p => arrayIndexVal p.1)) ∧
        (∀ p ∈ rest', isArrayIndex p.1 = false) ∧
        List.Pairwise (fun p q : String × JSValue => jsStrLt p.1 q.1 = true) rest' ∧
        (∀ p ∈ ints' ++ rest', jsObjLookup vals p.1 = some p.2) := by
  intro ks
  induction ks with
  | nil =>
      intro ints rest _ h2 h3 h4 h5 h6 _ _
      exact ⟨ints, rest, by simp, h2, h3, h4, h5, h6⟩
  | cons k ks ih =>
      intro ints rest hsort hIdx hIdxPw hRest hRestPw hLook hFresh hRestLe
      have hk : ∀ x ∈ ks, jsStrLe k x = true ∧ k ≠ x := (List.pairwise_cons.mp hsort).1
      have hsort' := (List.pairwise_cons.mp hsort).2
      rw [List.foldl_cons]
      cases hlk : jsObjLookup vals k with
      | none =>
          rw [show rebuildStep vals (ints ++ rest) k = ints ++ rest from by
            rw [rebuildStep, hlk]]
          exact ih ints rest hsort' hIdx hIdxPw hRest hRestPw hLook
            (fun p hp x hx => hFresh p hp x (by simp [hx]))
            (fun p hp x hx => hRestLe p hp x (by simp [hx]))
      | some v =>
          have hstep : rebuildStep vals (ints ++ rest) k = jsObjInsert (ints ++ rest) k v := by
            rw [rebuildStep, hlk]
          have hfr : ∀ p ∈ ints ++ rest, p.1 ≠ k := fun p hp => hFresh p hp k (by simp)
          rw [hstep, jsObjInsert_not_mem _ _ _ hfr]
          by_cases hik : isArrayIndex k
          · -- array-index key: sorted insert into the index prefix
            rw [if_pos hik, insertIdx_eq]
            set g := fun p : String × JSValue =>
              isArrayIndex p.1 && arrayIndexVal p.1 < arrayIndexVal k with hg
            have hstop : rest = [] ∨ ∃ x t, rest = x :: t ∧ g x = false := by
              cases hrest : rest with
              | nil => exact Or.inl rfl
              | cons x t =>
                  refine Or.inr ⟨x, t, rfl, ?_⟩
                  have := hRest x (by rw [hrest]; simp)
                  simp [hg, this]
            rw [takeWhile_append_stop g ints rest hstop, dropWhile_append_stop g ints rest hstop]
            set lo := ints.takeWhile g with hlo
            set hi := ints.dropWhile g with hhi
            have hsplit : lo ++ hi = ints := List.takeWhile_append_dropWhile g ints
            have hre : lo ++ (k, v) :: (hi ++ rest) = (lo ++ (k, v) :: hi) ++ rest := by simp
            rw [hre]
            have hIdx' : ∀ p ∈ lo ++ (k, v) :: hi, isArrayIndex p.1 = true := by
              intro p hp
              rcases List.mem_append.mp hp with hp | hp
              · exact hIdx p (hsplit ▸ List.mem_append_left hi (by rw [hlo] at hp; exact hp))
              · rcases List.mem_cons.mp hp with rfl | hp
                · exact hik
                · exact hIdx p (hsplit ▸ List.mem_append_right lo (by rw [hhi] at hp; exact hp))
            have hPwInts : List.Pairwise (· < ·)
                ((lo.map fun p => arrayIndexVal p.1) ++ (hi.map fun p => arrayIndexVal p.1)) := by
              have : (lo.map fun p => arrayIndexVal p.1) ++ (hi.map fun p => arrayIndexVal p.1)
                  = ints.map fun p => arrayIndexVal p.1 := by
                rw [← List.map_append, hsplit]
              rw [this]
              exact hIdxPw
            have hPwParts := List.pairwise_append.mp hPwInts
            have hloLt : ∀ p ∈ lo, arrayIndexVal p.1 < arrayIndexVal k := by
              intro p hp
              have := List.mem_takeWhile_imp (by rw [hlo] at hp; exact hp)
              simp only [hg, Bool.and_eq_true, decide_eq_true_eq] at this
              exact this.2
            have hhiGt : ∀ p ∈ hi, arrayIndexVal k < arrayIndexVal p.1 := by
              intro p hp
              cases hhe : hi with
              | nil => rw [hhe] at hp; simp at hp
              | cons h0 hs =>
                  have hh0 : g h0 = false := dropWhile_head_fails g ints h0 hs (by rw [← hhi, hhe])
                  have hh0idx : isArrayIndex h0.1 = true := hIdx h0
                    (hsplit ▸ List.mem_append_right lo (by rw [hhe]; simp))
                  have hh0ge : ¬ (arrayIndexVal h0.1 < arrayIndexVal k) := by
                    intro hlt
                    rw [hg] at hh0
                    simp [hh0idx, hlt] at hh0
                  have hh0ne : h0.1 ≠ k := hFresh h0
                    (List.mem_append_left rest (hsplit ▸ List.mem_append_right lo
                      (by rw [hhe]; simp))) k (by simp)
                  have hh0gt : arrayIndexVal k < arrayIndexVal h0.1 := by
                    rcases Nat.lt_or_ge (arrayIndexVal k) (arrayIndexVal h0.1) with h | h
                    · exact h
                    · have : arrayIndexVal h0.1 = arrayIndexVal k := by omega
                      exact absurd (arrayIndexVal_inj _ _ hh0idx hik this) hh0ne
                  rw [hhe] at hp
                  rcases List.mem_cons.mp hp with rfl | hp
                  · exact hh0gt
                  · have hpwhi : List.Pairwise (· < ·)
                        ((h0 :: hs).map fun p => arrayIndexVal p.1) := by
                      rw [← hhe]
                      exact hPwParts.2.1
                    rw [List.map_cons, List.pairwise_cons] at hpwhi
                    have := hpwhi.1 (arrayIndexVal p.1) (List.mem_map_of_mem _ hp)
                    omega
            have hIdxPw' : List.Pairwise (· < ·)
                ((lo ++ (k, v) :: hi).map fun p => arrayIndexVal p.1) := by
              rw [List.map_append, List.map_cons]
              rw [List.pairwise_append]
              refine ⟨hPwParts.1, ?_, ?_⟩
              · rw [List.pairwise_cons]
                refine ⟨?_, hPwParts.2.1⟩
                intro x hx
                obtain ⟨p, hp, rfl⟩ := List.mem_map.mp hx
                exact hhiGt p hp
              · intro a ha b hb
                obtain ⟨p, hp, rfl⟩ := List.mem_map.mp ha
                rcases List.mem_cons.mp hb with rfl | hb
                · exact hloLt p hp
                · obtain ⟨q, hq, rfl⟩ := List.mem_map.mp hb
                  have h1 := hloLt p hp
                  have h2 := hhiGt q hq
                  omega
            have hLook' : ∀ p ∈ (lo ++ (k, v) :: hi) ++ rest, jsObjLookup vals p.1 = some p.2 := by
              intro p hp
              rcases List.mem_append.mp hp with hp | hp
              · rcases List.mem_append.mp hp with hp | hp
                · exact hLook p (List.mem_append_left rest
                    (hsplit ▸ List.mem_append_left hi (by rw [hlo] at hp; exact hp)))
                · rcases List.mem_cons.mp hp with rfl | hp
                  · exact hlk
                  · exact hLook p (List.mem_append_left rest
                      (hsplit ▸ List.mem_append_right lo (by rw [hhi] at hp; exact hp)))
              · exact hLook p (List.mem_append_right _ hp)
            have hFresh' : ∀ p ∈ (lo ++ (k, v) :: hi) ++ rest, ∀ x ∈ ks, p.1 ≠ x := by
              intro p hp x hx
              rcases List.mem_append.mp hp with hp | hp
              · rcases List.mem_append.mp hp with hp | hp
                · exact hFresh p (List.mem_append_left rest
                    (hsplit ▸ List.mem_append_left hi (by rw [hlo] at hp; exact hp))) x
                    (by simp [hx])
                · rcases List.mem_cons.mp hp with rfl | hp
                  · exact (hk x hx).2
                  · exact hFresh p (List.mem_append_left rest
                      (hsplit ▸ List.mem_append_right lo (by rw [hhi] at hp; exact hp))) x
                      (by simp [hx])
              · exact hFresh p (List.mem_append_right _ hp) x (by simp [hx])
            exact ih (lo ++ (k, v) :: hi) rest hsort' hIdx' hIdxPw' hRest hRestPw hLook' hFresh'
              (fun p hp x hx => hRestLe p hp x (by simp [hx]))
          · -- non-index key: append to the tail
            rw [if_neg hik]
            have hre : (ints ++ rest) ++ [(k, v)] = ints ++ (rest ++ [(k, v)]) := by simp
            rw [hre]
            have hRest' : ∀ p ∈ rest ++ [(k, v)], isArrayIndex p.1 = false := by
              intro p hp
              rcases List.mem_append.mp hp with hp | hp
              · exact hRest p hp
              · rcases List.mem_singleton.mp hp with rfl
                simpa using hik
            have hRestPw' : List.Pairwise (fun p q : String × JSValue => jsStrLt p.1 q.1 = true)
                (rest ++ [(k, v)]) := by
              rw [List.pairwise_append]
              refine ⟨hRestPw, by simp, ?_⟩
              intro p hp q hq
              rcases List.mem_singleton.mp hq with rfl
              exact jsStrLt_of_le_ne _ _ (hRestLe p hp k (by simp))
                (hFresh p (List.mem_append_right ints hp) k (by simp))
            have hLook' : ∀ p ∈ ints ++ (rest ++ [(k, v)]), jsObjLookup vals p.1 = some p.2 := by
              intro p hp
              rcases List.mem_append.mp hp with hp | hp
              · exact hLook p (List.mem_append_left rest hp)
              · rcases List.mem_append.mp hp with hp | hp
                · exact hLook p (List.mem_append_right ints hp)
                · rcases List.mem_singleton.mp hp with rfl
                  exact hlk
            have hFresh' : ∀ p ∈ ints ++ (rest ++ [(k, v)]), ∀ x ∈ ks, p.1 ≠ x := by
              intro p hp x hx
              rcases List.mem_append.mp hp with hp | hp
              · exact hFresh p (List.mem_append_left rest hp) x (by simp [hx])
              · rcases List.mem_append.mp hp with hp | hp
                · exact hFresh p (List.mem_append_right ints hp) x (by simp [hx])
                · rcases List.mem_singleton.mp hp with rfl
                  exact (hk x hx).2
            have hRestLe' : ∀ p ∈ rest ++ [(k, v)], ∀ x ∈ ks, jsStrLe p.1 x = true := by
              intro p hp x hx
              rcases List.mem_append.mp hp with hp | hp
              · exact hRestLe p hp x (by simp [hx])
              · rcases List.mem_singleton.mp hp with rfl
                exact (hk x hx).1
            exact ih ints (rest ++ [(k, v)]) hsort' hIdx hIdxPw hRest' hRestPw' hLook' hFresh'
              hRestLe'

/-! ## Well-formed inputs and canonically ordered outputs -/

mutual
/-- Well-formed JS values: realizable JS objects have distinct keys at every
depth (the JS runtime guarantees this for every real object). -/
def wfKeys : JSValue → Bool
  | .null => true
  | .bool _ => true
  | .num _ => true
  | .str _ => true
  | .arr xs => wfList xs
  | .obj kvs => distinctKeys (kvs.map (·.1)) && wfFields kvs

/-- `wfKeys` on each element. -/
def wfList : List JSValue → Bool
  | [] => true
  | x :: xs => wfKeys x && wfList xs

/-- `wfKeys` on each field value. -/
def wfFields : List (String × JSValue) → Bool
  | [] => true
  | (_, v) :: kvs => wfKeys v && wfFields kvs
end

/-- Adjacent strict ascending chain in JS string order. -/
def chainStrLt : List String → Bool
  | [] => true
  | [_] => true
  | a :: b :: t => jsStrLt a b && chainStrLt (b :: t)

mutual
/-- Canonically ordered values: at every depth, object keys are distinct and
sorted with array-index keys first in strictly ascending numeric order,
followed by the remaining keys in strictly ascending code-unit order.  This is
the shape `deepCanonicalize` produces. -/
def canonOrd : JSValue → Bool
  | .null => true
  | .bool _ => true
  | .num _ => true
  | .str _ => true
  | .arr xs => canonOrdList xs
  | .obj kvs =>
      chainLt (((kvs.map (·.1)).takeWhile isArrayIndex).map arrayIndexVal) &&
        ((kvs.map (·.1)).dropWhile isArrayIndex).all (fun k => !isArrayIndex k) &&
        chainStrLt ((kvs.map (·.1)).dropWhile isArrayIndex) &&
        canonOrdFields kvs

/-- `canonOrd` on each element. -/
def canonOrdList : List JSValue → Bool
  | [] => true
  | x :: xs => canonOrd x && canonOrdList xs

/-- `canonOrd` on each field value. -/
def canonOrdFields : List (String × JSValue) → Bool
  | [] => true
  | (_, v) :: kvs => canonOrd v && canonOrdFields kvs
end

/-- Structural induction for `JSValue` with membership hypotheses. -/
theorem JSValue.myRec (P : JSValue → Prop) (hnull : P .null) (hbool : ∀ b, P (.bool b))
    (hnum : ∀ n, P (.num n)) (hstr : ∀ s, P (.str s))
    (harr : ∀ xs, (∀ x ∈ xs, P x) → P (.arr xs))
    (hobj : ∀ kvs, (∀ p ∈ kvs, P p.2) → P (.obj kvs)) : ∀ v, P v := fun v =>
  match v with
  | .null => hnull
  | .bool b => hbool b
  | .num n => hnum n
  | .str s => hstr s
  | .arr xs => harr xs (fun x hx =>
      JSValue.myRec P hnull hbool hnum hstr harr hobj x)
  | .obj kvs => hobj kvs (fun p hp =>
      JSValue.myRec P hnull hbool hnum hstr harr hobj p.2)
termination_by v => sizeOf v
decreasing_by
  · have := List.sizeOf_lt_of_mem hx
    simp only [JSValue.arr.sizeOf_spec]
    omega
  · have h1 := List.sizeOf_lt_of_mem hp
    have h2 : sizeOf p.2 < sizeOf p := by
      obtain ⟨a, b⟩ := p
      simp only [Prod.mk.sizeOf_spec]
      omega
    simp only [JSValue.obj.sizeOf_spec]
    omega

/-! ## Chain bridges for strings -/

theorem lexLt_trans : ∀ a b c : List Nat, lexLt a b = true → lexLt b c = true →
    lexLt a c = true
  | [], [], _, h1, _ => by simp [lexLt] at h1
  | [], _ :: _, [], _, h2 => by simp [lexLt] at h2
  | [], _ :: _, _ :: _, _, _ => rfl
  | _ :: _, [], _, h1, _ => by simp [lexLt] at h1
  | _ :: _, _ :: _, [], _, h2 => by simp [lexLt] at h2
  | a :: as', b :: bs', c :: cs', h1, h2 => by
      simp only [lexLt] at h1 h2 ⊢
      by_cases hab : a < b
      · by_cases hbc : b < c
        · have : a < c := by omega
          simp [this]
        · by_cases hcb : c < b
          · simp [hbc, hcb] at h2
          · have : b = c := by omega
            subst this
            simp [hab]
      · by_cases hba : b < a
        · simp [hab, hba] at h1
        · have : a = b := by omega
          subst this
          have h1' : lexLt as' bs' = true := by simpa [hab] using h1
          by_cases hac : a < c
          · simp [hac]
          · by_cases hca : c < a
            · simp [hac, hca] at h2
            · have h2' : lexLt bs' cs' = true := by simpa [hac, hca] using h2
              simpa [hac, hca] using lexLt_trans as' bs' cs' h1' h2'

theorem lexLt_irrefl : ∀ a : List Nat, lexLt a a = false
  | [] => rfl
  | x :: t => by
      simp only [lexLt, lt_irrefl, if_false]
      exact lexLt_irrefl t

theorem jsStrLt_trans (a b c : String) (h1 : jsStrLt a b = true) (h2 : jsStrLt b c = true) :
    jsStrLt a c = true := lexLt_trans _ _ _ h1 h2

theorem jsStrLt_ne (a b : String) (h : jsStrLt a b = true) : a ≠ b := by
  intro he
  subst he
  rw [jsStrLt, lexLt_irrefl] at h
  cases h

theorem chainStrLt_pairwise : ∀ l : List String, chainStrLt l = true →
    List.Pairwise (fun a b => jsStrLt a b = true) l
  | [], _ => List.Pairwise.nil
  | [_], _ => by simp
  | a :: b :: t, h => by
      simp only [chainStrLt, Bool.and_eq_true] at h
      have ih := chainStrLt_pairwise (b :: t) h.2
      refine List.Pairwise.cons ?_ ih
      intro x hx
      rcases List.mem_cons.mp hx with rfl | hx
      · exact h.1
      · exact jsStrLt_trans _ _ _ h.1 ((List.pairwise_cons.mp ih).1 x hx)

theorem pairwise_chainStrLt : ∀ l : List String,
    List.Pairwise (fun a b => jsStrLt a b = true) l → chainStrLt l = true
  | [], _ => rfl
  | [_], _ => rfl
  | a :: b :: t, h => by
      simp only [chainStrLt, Bool.and_eq_true]
      exact ⟨(List.pairwise_cons.mp h).1 b (by simp),
        pairwise_chainStrLt (b :: t) (List.pairwise_cons.mp h).2⟩

/-- Canonically ordered values are canonical (parse-stable). -/
theorem canonOrd_isCanon : ∀ v : JSValue, canonOrd v = true → isCanon v = true := by
  intro v
  induction v using JSValue.myRec with
  | hnull => intro; rfl
  | hbool b => intro; rfl
  | hnum n => intro; rfl
  | hstr s => intro; rfl
  | harr xs ih =>
      intro h
      rw [isCanon]
      rw [canonOrd] at h
      induction xs with
      | nil => rfl
      | cons x t iht =>
          rw [canonOrdList] at h
          rw [isCanonList]
          simp only [Bool.and_eq_true] at h ⊢
          exact ⟨ih x (by simp) h.1, iht (fun y hy => ih y (by simp [hy])) h.2⟩
  | hobj kvs ih =>
      intro h
      rw [isCanon]
      rw [canonOrd] at h
      simp only [Bool.and_eq_true] at h
      obtain ⟨⟨⟨h1, h2⟩, h3⟩, h4⟩ := h
      simp only [Bool.and_eq_true]
      constructor
      · rw [enumOrdered]
        simp only [Bool.and_eq_true]
        refine ⟨⟨h1, h2⟩, ?_⟩
        rw [distinctKeys_iff]
        have := chainStrLt_pairwise _ h3
        exact this.imp (fun hab => jsStrLt_ne _ _ hab)
      · clear h1 h2 h3
        induction kvs with
        | nil => rfl
        | cons p t iht =>
            obtain ⟨k, v⟩ := p
            rw [canonOrdFields] at h4
            rw [isCanonFields]
            simp only [Bool.and_eq_true] at h4 ⊢
            exact ⟨ih (k, v) (by simp) h4.1, iht (fun q hq => ih q (by simp [hq])) h4.2⟩

/-! ## `deepCanonicalize` produces canonically ordered values -/

theorem deepCanonFields_mem : ∀ (kvs : List (String × JSValue)) (p : String × JSValue),
    p ∈ deepCanonFields kvs → ∃ q ∈ kvs, p = (q.1, deepCanonicalize q.2)
  | [], p, h => by simp [deepCanonFields] at h
  | (k, v) :: t, p, h => by
      rw [deepCanonFields] at h
      rcases List.mem_cons.mp h with rfl | h
      · exact ⟨(k, v), by simp, rfl⟩
      · obtain ⟨q, hq, he⟩ := deepCanonFields_mem t p h
        exact ⟨q, by simp [hq], he⟩

theorem canonOrdFields_of_mem : ∀ kvs : List (String × JSValue),
    (∀ p ∈ kvs, canonOrd p.2 = true) → canonOrdFields kvs = true
  | [], _ => rfl
  | (k, v) :: t, h => by
      rw [canonOrdFields]
      simp only [Bool.and_eq_true]
      exact ⟨h (k, v) (by simp), canonOrdFields_of_mem t (fun p hp => h p (by simp [hp]))⟩

theorem takeWhile_all {α : Type} (p : α → Bool) (l : List α) (h : ∀ x ∈ l, p x = true) :
    l.takeWhile p = l := List.takeWhile_eq_self_iff.mpr h

theorem dropWhile_all {α : Type} (p : α → Bool) (l : List α) (h : ∀ x ∈ l, p x = true) :
    l.dropWhile p = [] := List.dropWhile_eq_nil_iff.mpr h

/-- `deepCanonicalize` on the object branch, named. -/
theorem deepCanonicalize_obj (kvs : List (String × JSValue)) :
    deepCanonicalize (.obj kvs) =
      .obj (((kvs.map (·.1)).mergeSort jsStrLe).foldl (rebuildStep (deepCanonFields kvs)) []) := by
  rw [deepCanonicalize]

theorem wfFields_mem : ∀ (kvs : List (String × JSValue)), wfFields kvs = true →
    ∀ p ∈ kvs, wfKeys p.2 = true := by
  intro kvs
  induction kvs with
  | nil => intro _ p hp; simp at hp
  | cons r t iht =>
      intro hwf p hp
      obtain ⟨a, b⟩ := r
      rw [wfFields] at hwf
      simp only [Bool.and_eq_true] at hwf
      rcases List.mem_cons.mp hp with rfl | hp
      · exact hwf.1
      · exact iht hwf.2 p hp

/-- On well-formed input, `deepCanonicalize` yields a canonically ordered
value. -/
theorem deepCanon_canonOrd : ∀ v : JSValue, wfKeys v = true →
    canonOrd (deepCanonicalize v) = true := by
  intro v
  induction v using JSValue.myRec with
  | hnull => intro; rfl
  | hbool b => intro; rfl
  | hnum n => intro; rfl
  | hstr s => intro; rfl
  | harr xs ih =>
      intro h
      rw [wfKeys] at h
      rw [deepCanonicalize, canonOrd]
      induction xs with
      | nil => rfl
      | cons x t iht =>
          rw [wfList] at h
          simp only [Bool.and_eq_true] at h
          rw [deepCanonList, canonOrdList]
          simp only [Bool.and_eq_true]
          exact ⟨ih x (by simp) h.1, iht (fun y hy => ih y (by simp [hy])) h.2⟩
  | hobj kvs ih =>
      intro h
      rw [wfKeys] at h
      simp only [Bool.and_eq_true] at h
      obtain ⟨hdk, hwf⟩ := h
      rw [deepCanonicalize_obj]
      have hsorted : List.Pairwise (fun a b => jsStrLe a b = true ∧ a ≠ b)
          ((kvs.map (·.1)).mergeSort jsStrLe) := by
        have hle : List.Pairwise (fun a b => jsStrLe a b = true)
            ((kvs.map (·.1)).mergeSort jsStrLe) :=
          List.sorted_mergeSort (fun a b c => jsStrLe_trans a b c) jsStrLe_total (kvs.map (·.1))
        have hnd : List.Pairwise (fun a b : String => a ≠ b)
            ((kvs.map (·.1)).mergeSort jsStrLe) := by
          have h1 : List.Pairwise (fun a b : String => a ≠ b) (kvs.map (·.1)) :=
            (distinctKeys_iff _).mp hdk
          have hperm := List.mergeSort_perm (kvs.map (·.1)) jsStrLe
          exact hperm.symm.nodup h1
        exact hle.and hnd
      obtain ⟨ints', rest', heq, hIdx', hPw', hRest', hRestPw', hLook'⟩ :=
        rebuildFold (deepCanonFields kvs) ((kvs.map (·.1)).mergeSort jsStrLe) [] []
          hsorted (by simp) (by simp) (by simp) (by simp) (by simp) (by simp) (by simp)
      simp only [List.nil_append] at heq
      rw [heq, canonOrd]
      have hstop : rest'.map (·.1) = [] ∨
          ∃ x t, rest'.map (·.1) = x :: t ∧ isArrayIndex x = false := by
        cases hre : rest' with
        | nil => exact Or.inl rfl
        | cons x t => exact Or.inr ⟨x.1, t.map (·.1), by simp, hRest' x (by rw [hre]; simp)⟩
      have hkeys : (ints' ++ rest').map (·.1) = ints'.map (·.1) ++ rest'.map (·.1) := by simp
      have htw : ((ints' ++ rest').map (·.1)).takeWhile isArrayIndex = ints'.map (·.1) := by
        rw [hkeys, takeWhile_append_stop _ _ _ hstop, takeWhile_all]
        intro x hx
        obtain ⟨p, hp, rfl⟩ := List.mem_map.mp hx
        exact hIdx' p hp
      have hdw : ((ints' ++ rest').map (·.1)).dropWhile isArrayIndex = rest'.map (·.1) := by
        rw [hkeys, dropWhile_append_stop _ _ _ hstop, dropWhile_all]
        · simp
        · intro x hx
          obtain ⟨p, hp, rfl⟩ := List.mem_map.mp hx
          exact hIdx' p hp
      simp only [Bool.and_eq_true]
      refine ⟨⟨⟨?_, ?_⟩, ?_⟩, ?_⟩
      · rw [htw]
        apply pairwise_chainLt
        rw [List.pairwise_map, List.pairwise_map]
        have h5 := hPw'
        rw [List.pairwise_map] at h5
        exact h5
      · rw [hdw]
        simp only [List.all_eq_true, Bool.not_eq_true', decide_eq_true_eq]
        intro x hx
        obtain ⟨p, hp, rfl⟩ := List.mem_map.mp hx
        exact hRest' p hp
      · rw [hdw]
        apply pairwise_chainStrLt
        rw [List.pairwise_map]
        exact hRestPw'
      · refine canonOrdFields_of_mem _ ?_
        intro p hp
        have hlook := hLook' p hp
        rw [jsObjLookup] at hlook
        cases hfind : (deepCanonFields kvs).find? (fun q => q.1 = p.1) with
        | none =>
            rw [hfind] at hlook
            exact absurd hlook (by simp)
        | some q =>
            rw [hfind] at hlook
            simp only [Option.map_some', Option.some.injEq] at hlook
            have hqmem := List.mem_of_find?_eq_some hfind
            obtain ⟨w, hw, hqe⟩ := deepCanonFields_mem kvs q hqmem
            have : p.2 = deepCanonicalize w.2 := by
              rw [← hlook, hqe]
            rw [this]
            exact ih w hw (wfFields_mem kvs hwf w hw)

/-! ## `JSON.parse` inverts `JSON.stringify` on canonically ordered values -/

theorem parseVal_nullHead (f : Nat) (r : List Char) :
    parseVal (f + 1) ('n' :: 'u' :: 'l' :: 'l' :: r) = some (.null, r) := by
  rw [parseVal]

theorem parseVal_trueHead (f : Nat) (r : List Char) :
    parseVal (f + 1) ('t' :: 'r' :: 'u' :: 'e' :: r) = some (.bool true, r) := by
  rw [parseVal]

theorem parseVal_falseHead (f : Nat) (r : List Char) :
    parseVal (f + 1) ('f' :: 'a' :: 'l' :: 's' :: 'e' :: r) = some (.bool false, r) := by
  rw [parseVal]

theorem parseVal_strHead (f : Nat) (r : List Char) :
    parseVal (f + 1) ('"' :: r) =
      (match parseStrAux [] r with
       | some (body, r2) => some (.str (String.mk body), r2)
       | none => none) := by
  rw [parseVal]

theorem parseVal_emptyArr (f : Nat) (r : List Char) :
    parseVal (f + 1) ('[' :: ']' :: r) = some (.arr [], r) := by
  rw [parseVal]

theorem parseVal_emptyObj (f : Nat) (r : List Char) :
    parseVal (f + 1) ('{' :: '}' :: r) = some (.obj [], r) := by
  rw [parseVal]

theorem parseVal_objCons (f : Nat) (c : Char) (t : List Char) (hc : c ≠ '}') :
    parseVal (f + 1) ('{' :: c :: t) =
      (match parseMembers f (c :: t) with
       | some (ms, r2) => some (.obj (jsObjOfMembers ms), r2)
       | none => none) := by
  rw [parseVal]
  all_goals intros
  all_goals simp_all

theorem stringifyL_len_pos (v : JSValue) : 1 ≤ (stringifyL v).length := by
  obtain ⟨c, t, hct, _⟩ := stringify_head v
  rw [hct]
  simp

/-- Fueled statement: `parseVal` inverts `stringifyL` on canonically ordered
values (and likewise for element and member lists), for any fuel above the
rendering length. -/
theorem rt_parse : ∀ fuel : Nat,
    (∀ v rest, isCanon v = true → noDigitHead rest = true →
      (stringifyL v).length < fuel →
      parseVal fuel (stringifyL v ++ rest) = some (v, rest)) ∧
    (∀ xs rest, xs ≠ [] → isCanonList xs = true →
      (stringifyElems xs).length + 1 < fuel →
      parseElems fuel (stringifyElems xs ++ ']' :: rest) = some (xs, rest)) ∧
    (∀ kvs rest, kvs ≠ [] → isCanonFields kvs = true →
      (stringifyFields kvs).length + 1 < fuel →
      parseMembers fuel (stringifyFields kvs ++ '}' :: rest) = some (kvs, rest)) := by
  intro fuel
  induction fuel with
  | zero =>
      refine ⟨?_, ?_, ?_⟩
      · intro v rest _ _ h
        exact absurd h (Nat.not_lt_zero _)
      · intro xs rest _ _ h
        exact absurd h (Nat.not_lt_zero _)
      · intro kvs rest _ _ h
        exact absurd h (Nat.not_lt_zero _)
  | succ f ih =>
      obtain ⟨ihP, ihQ, ihR⟩ := ih
      refine ⟨?_, ?_, ?_⟩
      · intro v rest hcan hnd hlen
        cases v with
        | null => exact parseVal_nullHead f rest
        | bool b =>
            cases b with
            | true => exact parseVal_trueHead f rest
            | false => exact parseVal_falseHead f rest
        | num n =>
            by_cases hn : n < 0
            · have harg : stringifyL (.num n) ++ rest
                  = '-' :: (natChars n.natAbs [] ++ rest) := by
                simp [stringifyL, intChars, hn]
              have h2 := parseNum_intChars n rest hnd
              rw [show (intChars n ++ rest : List Char)
                  = '-' :: (natChars n.natAbs [] ++ rest) from harg] at h2
              rw [harg, parseVal_minusHead, h2]
            · obtain ⟨c, t, hct, hc⟩ := natChars_head n.natAbs
              have harg : stringifyL (.num n) ++ rest = c :: (t ++ rest) := by
                simp [stringifyL, intChars, hn, hct]
              have h2 := parseNum_intChars n rest hnd
              rw [show (intChars n ++ rest : List Char) = c :: (t ++ rest) from harg] at h2
              rw [harg, parseVal_digitHead f c _ hc, h2]
        | str s =>
            have harg : stringifyL (.str s) ++ rest
                = '"' :: (s.data.flatMap escChar ++ '"' :: rest) := by
              simp [stringifyL, quoteStr]
            have hps := parseStrAux_run s.data [] rest
            simp only [List.reverse_nil, List.nil_append] at hps
            rw [harg, parseVal_strHead, hps]
        | arr xs =>
            cases xs with
            | nil =>
                have harg : stringifyL (.arr []) ++ rest = '[' :: ']' :: rest := by
                  simp [stringifyL, stringifyElems]
                rw [harg, parseVal_emptyArr]
            | cons x more =>
                rw [isCanon] at hcan
                obtain ⟨c, t, hct, hc⟩ := stringify_head x
                have hT : ∃ T, stringifyElems (x :: more) = c :: T := by
                  cases more with
                  | nil => exact ⟨t, by simp [stringifyElems, hct]⟩
                  | cons y ys =>
                      exact ⟨t ++ ',' :: stringifyElems (y :: ys),
                        by simp [stringifyElems, hct]⟩
                obtain ⟨T, hTe⟩ := hT
                have harg : stringifyL (.arr (x :: more)) ++ rest
                    = '[' :: c :: (T ++ ']' :: rest) := by
                  simp [stringifyL, hTe]
                have hlen2 : (stringifyElems (x :: more)).length + 1 < f := by
                  simp only [stringifyL, List.length_cons, List.length_append,
                    List.length_singleton] at hlen
                  omega
                have hQ := ihQ (x :: more) rest (by simp) hcan hlen2
                rw [show (stringifyElems (x :: more) ++ ']' :: rest : List Char)
                    = c :: (T ++ ']' :: rest) from by rw [hTe]; simp] at hQ
                rw [harg, parseVal_arrCons f c _ hc, hQ]
        | obj kvs =>
            cases kvs with
            | nil =>
                have harg : stringifyL (.obj []) ++ rest = '{' :: '}' :: rest := by
                  simp [stringifyL, stringifyFields]
                rw [harg, parseVal_emptyObj]
            | cons p more =>
                rw [isCanon] at hcan
                simp only [Bool.and_eq_true] at hcan
                obtain ⟨henum, hcf⟩ := hcan
                have hT : ∃ T, stringifyFields (p :: more) = '"' :: T := by
                  obtain ⟨k, w⟩ := p
                  cases more with
                  | nil =>
                      exact ⟨(k.data.flatMap escChar ++ ['"']) ++ ':' :: stringifyL w,
                        by simp [stringifyFields, quoteStr]⟩
                  | cons q t2 =>
                      exact ⟨(k.data.flatMap escChar ++ ['"'])
                          ++ ':' :: (stringifyL w ++ ',' :: stringifyFields (q :: t2)),
                        by simp [stringifyFields, quoteStr]⟩
                obtain ⟨T, hTe⟩ := hT
                have harg : stringifyL (.obj (p :: more)) ++ rest
                    = '{' :: '"' :: (T ++ '}' :: rest) := by
                  simp [stringifyL, hTe]
                have hlen2 : (stringifyFields (p :: more)).length + 1 < f := by
                  simp only [stringifyL, List.length_cons, List.length_append,
                    List.length_singleton] at hlen
                  omega
                have hR := ihR (p :: more) rest (by simp) hcf hlen2
                rw [show (stringifyFields (p :: more) ++ '}' :: rest : List Char)
                    = '"' :: (T ++ '}' :: rest) from by rw [hTe]; simp] at hR
                rw [harg, parseVal_objCons f '"' _ (by decide), hR]
                simp only []
                rw [jsObjOfMembers_id _ henum]
      · intro xs rest hne hcl hlen
        cases xs with
        | nil => exact absurd rfl hne
        | cons x more =>
            rw [isCanonList] at hcl
            simp only [Bool.and_eq_true] at hcl
            obtain ⟨hcx, hcm⟩ := hcl
            cases more with
            | nil =>
                have hlenx : (stringifyL x).length < f := by
                  simp only [stringifyElems, List.length_cons] at hlen
                  omega
                have hP := ihP x (']' :: rest) hcx (by rfl) hlenx
                have harg : stringifyElems [x] ++ ']' :: rest
                    = stringifyL x ++ ']' :: rest := by
                  simp [stringifyElems]
                rw [harg, parseElems, hP]
                rfl
            | cons y ys =>
                have hx1 := stringifyL_len_pos x
                have hlenx : (stringifyL x).length < f := by
                  simp only [stringifyElems, List.length_append, List.length_cons] at hlen
                  omega
                have hlenm : (stringifyElems (y :: ys)).length + 1 < f := by
                  simp only [stringifyElems, List.length_append, List.length_cons] at hlen
                  omega
                have hP := ihP x (',' :: (stringifyElems (y :: ys) ++ ']' :: rest)) hcx
                  (by rfl) hlenx
                have hQ2 := ihQ (y :: ys) rest (by simp) hcm hlenm
                have harg : stringifyElems (x :: y :: ys) ++ ']' :: rest
                    = stringifyL x ++ ',' :: (stringifyElems (y :: ys) ++ ']' :: rest) := by
                  simp [stringifyElems]
                rw [harg, parseElems, hP]
                simp only [hQ2]
      · intro kvs rest hne hcf hlen
        cases kvs with
        | nil => exact absurd rfl hne
        | cons p more =>
            obtain ⟨k, v⟩ := p
            rw [isCanonFields] at hcf
            simp only [Bool.and_eq_true] at hcf
            obtain ⟨hcv, hcm⟩ := hcf
            cases more with
            | nil =>
                have hlenv : (stringifyL v).length < f := by
                  simp only [stringifyFields, quoteStr, List.length_append,
                    List.length_cons] at hlen
                  omega
                have hP := ihP v ('}' :: rest) hcv (by rfl) hlenv
                have hps := parseStrAux_run k.data [] (':' :: (stringifyL v ++ '}' :: rest))
                simp only [List.reverse_nil, List.nil_append] at hps
                have harg : stringifyFields [(k, v)] ++ '}' :: rest
                    = '"' :: (k.data.flatMap escChar
                        ++ '"' :: (':' :: (stringifyL v ++ '}' :: rest))) := by
                  simp [stringifyFields, quoteStr]
                rw [harg, parseMembers, hps]
                simp only [hP]
            | cons q t2 =>
                have hv1 := stringifyL_len_pos v
                have hlenv : (stringifyL v).length < f := by
                  simp only [stringifyFields, quoteStr, List.length_append,
                    List.length_cons] at hlen
                  omega
                have hlenm : (stringifyFields (q :: t2)).length + 1 < f := by
                  simp only [stringifyFields, quoteStr, List.length_append,
                    List.length_cons] at hlen
                  omega
                have hP := ihP v
                  (',' :: (stringifyFields (q :: t2) ++ '}' :: rest)) hcv (by rfl) hlenv
                have hR2 := ihR (q :: t2) rest (by simp) hcm hlenm
                have hps := parseStrAux_run k.data []
                  (':' :: (stringifyL v ++ ',' :: (stringifyFields (q :: t2) ++ '}' :: rest)))
                simp only [List.reverse_nil, List.nil_append] at hps
                have harg : stringifyFields ((k, v) :: q :: t2) ++ '}' :: rest
                    = '"' :: (k.data.flatMap escChar ++ '"' :: (':' :: (stringifyL v
                        ++ ',' :: (stringifyFields (q :: t2) ++ '}' :: rest)))) := by
                  simp [stringifyFields, quoteStr]
                rw [harg, parseMembers, hps]
                simp only [hP, hR2]

/-- `(stringify v).data` is the rendered character list. -/
theorem stringify_data (v : JSValue) : (stringify v).data = stringifyL v := rfl

/-- `JSON.parse` inverts `JSON.stringify` on canonically ordered values. -/
theorem jsonParse_stringify (v : JSValue) (h : isCanon v = true) :
    jsonParse (stringify v) = some v := by
  have hP := (rt_parse (2 * (stringifyL v).length + 4)).1 v [] h (by rfl) (by omega)
  rw [List.append_nil] at hP
  rw [jsonParse, stringify_data, hP]

/-- `JSON.parse` recovers `deepCanonicalize v` from `canonicalJson v` whenever
the input object tree has distinct keys at every level. -/
theorem jsonParse_canonicalJson (v : JSValue) (h : wfKeys v = true) :
    jsonParse (canonicalJson v) = some (deepCanonicalize v) := by
  rw [show canonicalJson v = stringify (deepCanonicalize v) from rfl]
  exact jsonParse_stringify _ (canonOrd_isCanon _ (deepCanon_canonOrd v h))

/-! ## Claim-layer support: named seal-side aggregates -/

/-- The header list `seal` feeds the AAD builder: the core header (if any)
followed by the extension entries. -/
def transportHeaders (t : Transport) : List HeaderEntry :=
  (match t.headerCore with | some c => [c] | none => []) ++ t.extensions

/-- The normalization `buildAadFromTransport` applies to headers: canonicalize
each value, then sort by lowercased name. -/
def headersNormalizedOf (headers : List HeaderEntry) : List HeaderEntry :=
  (headers.map fun h => (⟨h.header, deepCanonicalize h.value⟩ : HeaderEntry)).mergeSort
    (fun a b => headerNameLe a.header b.header)

/-- The headers-array value serialized into the AAD. -/
def headersArrVal (hs : List HeaderEntry) : JSValue :=
  .arr (hs.map fun h => .obj [("header", .str h.header), ("value", h.value)])

theorem headersJsonOf_eq (hs : List HeaderEntry) :
    headersJsonOf hs = stringify (headersArrVal hs) := rfl

/-- `buildAadFromTransport` on a permitted namespace: the explicit output. -/
theorem buildAad_ok (nspace : String) (headers : List HeaderEntry)
    (body : List (String × JSValue)) (h1 : nspace ≠ "") (h2 : jsToLower nspace ≠ "x402") :
    buildAadFromTransport nspace headers body =
      .ok ⟨utf8Encode (nspace ++ "|v1|" ++ headersJsonOf (headersNormalizedOf headers)
          ++ "|" ++ stringify (.obj (deepCanonObj body))),
        headersNormalizedOf headers, deepCanonObj body⟩ := by
  rw [buildAadFromTransport, if_neg]
  · rfl
  · intro h
    rcases h with h | h
    · exact h1 h
    · exact h2 h

/-- The object branch of `deepCanonicalize` through `deepCanonObj`. -/
theorem deepCanonicalize_objEq (kvs : List (String × JSValue)) :
    deepCanonicalize (.obj kvs) = .obj (deepCanonObj kvs) := by
  rw [deepCanonObj, deepCanonicalize_obj]

/-- `canonicalJson` of an object, through `deepCanonObj`. -/
theorem canonicalJson_objEq (kvs : List (String × JSValue)) :
    canonicalJson (.obj kvs) = stringify (.obj (deepCanonObj kvs)) := by
  rw [canonicalJson, deepCanonicalize_objEq]

/-- The canonicalized body object is canonically ordered. -/
theorem deepCanonObj_isCanon (kvs : List (String × JSValue))
    (h : wfKeys (.obj kvs) = true) : isCanon (.obj (deepCanonObj kvs)) = true := by
  rw [← deepCanonicalize_objEq]
  exact canonOrd_isCanon _ (deepCanon_canonOrd _ h)

/-- Members of the normalized header list are canonicalizations of the
original entries. -/
theorem headersNormalizedOf_mem (headers : List HeaderEntry) (h : HeaderEntry)
    (hmem : h ∈ headersNormalizedOf headers) :
    ∃ g ∈ headers, h = ⟨g.header, deepCanonicalize g.value⟩ := by
  rw [headersNormalizedOf] at hmem
  have hperm := List.mergeSort_perm
    (headers.map fun h => (⟨h.header, deepCanonicalize h.value⟩ : HeaderEntry))
    (fun a b => headerNameLe a.header b.header)
  have hmem2 := hperm.mem_iff.mp hmem
  obtain ⟨g, hg, hge⟩ := List.mem_map.mp hmem2
  exact ⟨g, hg, hge.symm⟩

/-- The serialized headers array is canonically ordered whenever every header
value is. -/
theorem headersArrVal_isCanon (hs : List HeaderEntry)
    (h : ∀ e ∈ hs, isCanon e.value = true) : isCanon (headersArrVal hs) = true := by
  rw [headersArrVal, isCanon]
  induction hs with
  | nil => rfl
  | cons e t ih =>
      rw [List.map_cons, isCanonList]
      simp only [Bool.and_eq_true]
      refine ⟨?_, ih (fun x hx => h x (by simp [hx]))⟩
      rw [isCanon]
      simp only [Bool.and_eq_true]
      constructor
      · show enumOrdered ["header", "value"] = true
        decide
      · rw [isCanonFields]
        simp only [Bool.and_eq_true]
        refine ⟨rfl, ?_⟩
        rw [isCanonFields]
        simp only [Bool.and_eq_true]
        exact ⟨h e (by simp), rfl⟩

/-- The 44-byte HKDF output in RFC 5869 extract/expand form: `prk` from a
32-byte zero salt, two counter blocks, truncated. -/
theorem hkdf44 (f : List Nat → List Nat → List Nat) (ikm info : List Nat) :
    hkdfSha256 f ikm info 44 =
      (f (f (List.replicate 32 0) ikm) (info ++ [1]) ++
        f (f (List.replicate 32 0) ikm)
          (f (f (List.replicate 32 0) ikm) (info ++ [1]) ++ info ++ [2])).take 44 := by
  show ((hkdfBlocks f (f (List.replicate 32 0) ikm) info ((44 + 31) / 32)).2).take 44 = _
  rw [show (44 + 31) / 32 = 2 from by decide]
  rw [show (2 : Nat) = 1 + 1 from rfl, hkdfBlocks, show (1 : Nat) = 0 + 1 from rfl, hkdfBlocks,
    hkdfBlocks]
  simp

/-- `splitPipe` on the assembled AAD text. -/
theorem splitPipe_aad (nsd hd bd : List Char) (h1 : '|' ∉ nsd) (h2 : '|' ∉ hd)
    (h3 : '|' ∉ bd) :
    splitPipe (nsd ++ '|' :: 'v' :: '1' :: '|' :: (hd ++ '|' :: bd)) =
      [nsd, ['v', '1'], hd, bd] := by
  rw [splitPipe_append nsd h1]
  rw [show ('v' :: '1' :: '|' :: (hd ++ '|' :: bd) : List Char)
      = ['v', '1'] ++ '|' :: (hd ++ '|' :: bd) from rfl]
  rw [splitPipe_append ['v', '1'] (by decide)]
  rw [splitPipe_append hd h2]
  rw [splitPipe_no_pipe bd h3]

/-! ## A concrete instantiation of the crypto collaborators

A small executable stand-in satisfying the contracts the theorems assume
(checked by the evaluation witnesses): discrete-log Diffie-Hellman in the
multiplicative group mod 101 with base 3, a 16-byte appended-tag AEAD, and a
sum-based 32-byte PRF. -/

/-- The toy AEAD tag: sixteen copies of a byte derived from key, nonce and
associated data. -/
def tag16 (k n ad : List Nat) : List Nat :=
  List.replicate 16 ((k.sum * 3 + n.sum * 5 + ad.sum * 7 + ad.length) % 256)

/-- The toy collaborators. -/
def tC : Crypto where
  scalarmult := fun sk pk => [pk.headD 0 ^ sk.headD 0 % 101]
  scalarmultBase := fun sk => [3 ^ sk.headD 0 % 101]
  aeadEnc := fun k n pt ad => pt ++ tag16 k n ad
  aeadDec := fun k n ct ad =>
    if ct.length < 16 then none
    else if ct.drop (ct.length - 16) = tag16 k n ad then some (ct.take (ct.length - 16))
    else none
  hmac := fun k m => (List.range 32).map (fun i => (k.sum * 3 + m.sum * 7 + m.length + i) % 256)

theorem tag16_lt_256 (k n ad : List Nat) : ∀ b ∈ tag16 k n ad, b < 256 := by
  intro b hb
  rw [tag16] at hb
  have := List.eq_of_mem_replicate hb
  omega

/-- The toy AEAD round-trips on every input. -/
theorem tC_aead_roundtrip (k n pt ad : List Nat) :
    tC.aeadDec k n (tC.aeadEnc k n pt ad) ad = some pt := by
  show (if (pt ++ tag16 k n ad).length < 16 then none
    else if (pt ++ tag16 k n ad).drop ((pt ++ tag16 k n ad).length - 16)
        = tag16 k n ad then some ((pt ++ tag16 k n ad).take ((pt ++ tag16 k n ad).length - 16))
    else none) = some pt
  have hlen : (pt ++ tag16 k n ad).length = pt.length + 16 := by
    simp [tag16]
  rw [hlen, if_neg (by omega), show pt.length + 16 - 16 = pt.length from by omega]
  rw [List.drop_left, if_pos rfl, List.take_left]

/-- The toy AEAD emits bytes below 256 whenever the plaintext has them. -/
theorem tC_enc_lt_256 (k n pt ad : List Nat) (h : ∀ b ∈ pt, b < 256) :
    ∀ b ∈ tC.aeadEnc k n pt ad, b < 256 := by
  intro b hb
  show b < 256
  rw [show tC.aeadEnc k n pt ad = pt ++ tag16 k n ad from rfl] at hb
  rcases List.mem_append.mp hb with hb | hb
  · exact h b hb
  · exact tag16_lt_256 k n ad b hb

/-- `seal` without a sidecar request: the explicit envelope it emits. -/
theorem sealEnvelope_none_ok (C : Crypto) (ns kem kdf kid : String) (jwkPub : OkpJwk)
    (t : Transport) (eph : EphKeys) (pkR : List Nat)
    (h1 : ns ≠ "") (h2 : jsToLower ns ≠ "x402")
    (hpub : jwkToPublicKeyBytes jwkPub = .ok pkR)
    (hz1 : isAllZero pkR = false)
    (hz2 : isAllZero (C.scalarmult eph.sk pkR) = false) :
    sealEnvelope C ⟨ns, kem, kdf, "CHACHA20-POLY1305", kid, jwkPub, t, none⟩ eph =
      .ok ⟨⟨"hpke-envelope", "1", some "X25519-HKDF-SHA256-CHACHA20POLY1305", ns, kid, kem, kdf,
          "CHACHA20-POLY1305", b64u eph.pk,
          b64u (utf8Encode (ns ++ "|v1|"
            ++ headersJsonOf (headersNormalizedOf (transportHeaders t))
            ++ "|" ++ stringify (.obj (deepCanonObj t.body)))),
          b64u (C.aeadEnc
            ((hkdfSha256 C.hmac (C.scalarmult eph.sk pkR)
              (utf8Encode ("x402-hpke:v1|KDF=" ++ kdf ++ "|AEAD=" ++ "CHACHA20-POLY1305"
                ++ "|ns=" ++ ns ++ "|enc=" ++ b64u eph.pk ++ "|pkR=" ++ b64u pkR)) 44).take 32)
            ((hkdfSha256 C.hmac (C.scalarmult eph.sk pkR)
              (utf8Encode ("x402-hpke:v1|KDF=" ++ kdf ++ "|AEAD=" ++ "CHACHA20-POLY1305"
                ++ "|ns=" ++ ns ++ "|enc=" ++ b64u eph.pk ++ "|pkR=" ++ b64u pkR)) 44).drop 32)
            (utf8Encode (stringify (.obj (deepCanonObj t.body))))
            (utf8Encode (ns ++ "|v1|"
              ++ headersJsonOf (headersNormalizedOf (transportHeaders t))
              ++ "|" ++ stringify (.obj (deepCanonObj t.body)))))⟩,
        none, none⟩ := by
  have hb : buildAadFromTransport ns
      ((match t.headerCore with | some c => [c] | none => []) ++ t.extensions) t.body =
      .ok ⟨utf8Encode (ns ++ "|v1|" ++ headersJsonOf (headersNormalizedOf (transportHeaders t))
          ++ "|" ++ stringify (.obj (deepCanonObj t.body))),
        headersNormalizedOf (transportHeaders t), deepCanonObj t.body⟩ :=
    buildAad_ok ns (transportHeaders t) t.body h1 h2
  simp [sealEnvelope, hb, hpub, hz1, hz2]

theorem strData_append (a b : String) : (a ++ b).data = a.data ++ b.data := rfl

theorem strEta (s : String) : String.mk s.data = s := rfl

/-- C1 (corrected): with a pipe-free namespace and pipe-free serialized header
and body JSON, `open ∘ seal` round-trips: the plaintext is the canonical JSON
bytes of the normalized body, and the returned headers are the normalized
header array.  (Without the pipe-freedom hypotheses the AAD split on `"|"`
misparses and `open` fails; see the counterexample.) -/
theorem seal_open_roundtrip
    (C : Crypto) (ns kem kdf kid : String) (jwkPub jwkPriv : OkpJwk)
    (t : Transport) (eph : EphKeys) (pkR skR : List Nat)
    (h1 : ns ≠ "") (h2 : jsToLower ns ≠ "x402")
    (hpub : jwkToPublicKeyBytes jwkPub = .ok pkR)
    (hpriv : jwkToPrivateKeyBytes jwkPriv = .ok skR)
    (hephb : ∀ b ∈ eph.pk, b < 256)
    (hz1 : isAllZero pkR = false)
    (hz2 : isAllZero (C.scalarmult eph.sk pkR) = false)
    (hz3 : isAllZero eph.pk = false)
    (hdh : C.scalarmult skR eph.pk = C.scalarmult eph.sk pkR)
    (hbase : C.scalarmultBase skR = pkR)
    (hencB : ∀ k n pt ad, (∀ b ∈ pt, b < 256) → ∀ b ∈ C.aeadEnc k n pt ad, b < 256)
    (haead : ∀ k n pt ad, C.aeadDec k n (C.aeadEnc k n pt ad) ad = some pt)
    (hwfb : wfKeys (.obj t.body) = true)
    (hwfh : ∀ h ∈ transportHeaders t, wfKeys h.value = true)
    (hpn : '|' ∉ ns.data)
    (hph : '|' ∉ (headersJsonOf (headersNormalizedOf (transportHeaders t))).data)
    (hpb : '|' ∉ (stringify (.obj (deepCanonObj t.body))).data) :
    ∃ E, sealEnvelope C ⟨ns, kem, kdf, "CHACHA20-POLY1305", kid, jwkPub, t, none⟩ eph
        = .ok ⟨E, none, none⟩ ∧
      openEnvelope C ⟨ns, kem, kdf, "CHACHA20-POLY1305", none, jwkPriv, E, none, none, none⟩
        = .ok ⟨utf8Encode (canonicalJson (.obj t.body)),
            some (.obj (deepCanonObj t.body)),
            some (headersArrVal (headersNormalizedOf (transportHeaders t))),
            none, none, none, none⟩ := by
  refine ⟨_, sealEnvelope_none_ok C ns kem kdf kid jwkPub t eph pkR h1 h2 hpub hz1 hz2, ?_⟩
  have hencR : b64uToBytes (b64u eph.pk) = eph.pk := b64uToBytes_b64u _ hephb
  have haadR : b64uToBytes (b64u (utf8Encode (ns ++ "|v1|"
      ++ headersJsonOf (headersNormalizedOf (transportHeaders t))
      ++ "|" ++ stringify (.obj (deepCanonObj t.body)))))
      = utf8Encode (ns ++ "|v1|" ++ headersJsonOf (headersNormalizedOf (transportHeaders t))
        ++ "|" ++ stringify (.obj (deepCanonObj t.body))) :=
    b64uToBytes_b64u _ (utf8Encode_lt_256 _)
  have hctR : ∀ key nonce aadB,
      b64uToBytes (b64u (C.aeadEnc key nonce
        (utf8Encode (stringify (.obj (deepCanonObj t.body)))) aadB))
      = C.aeadEnc key nonce (utf8Encode (stringify (.obj (deepCanonObj t.body)))) aadB :=
    fun key nonce aadB => b64uToBytes_b64u _ (hencB _ _ _ _ (utf8Encode_lt_256 _))
  have hbody : jsonParse (stringify (.obj (deepCanonObj t.body)))
      = some (.obj (deepCanonObj t.body)) :=
    jsonParse_stringify _ (deepCanonObj_isCanon _ hwfb)
  have hhcanon : ∀ e ∈ headersNormalizedOf (transportHeaders t), isCanon e.value = true := by
    intro e he
    obtain ⟨g, hg, rfl⟩ := headersNormalizedOf_mem _ e he
    exact canonOrd_isCanon _ (deepCanon_canonOrd _ (hwfh g hg))
  have hheaders : jsonParse (headersJsonOf (headersNormalizedOf (transportHeaders t)))
      = some (.arr ((headersNormalizedOf (transportHeaders t)).map fun h =>
          .obj [("header", .str h.header), ("value", h.value)])) := by
    rw [headersJsonOf_eq]
    simpa [headersArrVal] using
      jsonParse_stringify _ (headersArrVal_isCanon _ hhcanon)
  have hd : (ns ++ "|v1|" ++ headersJsonOf (headersNormalizedOf (transportHeaders t))
      ++ "|" ++ stringify (.obj (deepCanonObj t.body))).data
      = ns.data ++ '|' :: 'v' :: '1' :: '|'
        :: ((headersJsonOf (headersNormalizedOf (transportHeaders t))).data
          ++ '|' :: (stringify (.obj (deepCanonObj t.body))).data) := by
    simp [strData_append, List.append_assoc]
  have hsplit : splitPipe (ns.data ++ '|' :: 'v' :: '1' :: '|'
      :: ((headersJsonOf (headersNormalizedOf (transportHeaders t))).data
        ++ '|' :: (stringify (.obj (deepCanonObj t.body))).data))
      = [ns.data, "v1".data,
          (headersJsonOf (headersNormalizedOf (transportHeaders t))).data,
          (stringify (.obj (deepCanonObj t.body))).data] :=
    splitPipe_aad _ _ _ hpn hph hpb
  rw [canonicalJson_objEq]
  simp [openEnvelope, h2, hpriv, hencR, hz3, hdh, hz2, hbase, haadR, hctR, haead,
    utf8Decode_encode, hsplit, strEta, hheaders, hbody, headersArrVal]

instance {e a : Type} [DecidableEq e] [DecidableEq a] : DecidableEq (Except e a) := fun x y =>
  match x, y with
  | .error u, .error w => decidable_of_iff (u = w) (by simp)
  | .ok u, .ok w => decidable_of_iff (u = w) (by simp)
  | .error _, .ok _ => isFalse (fun hc => Except.noConfusion hc)
  | .ok _, .error _ => isFalse (fun hc => Except.noConfusion hc)

/-! ## Concrete fixtures for the evaluation witnesses -/

/-- A recipient public JWK over the toy group: `pk = 3^5 mod 101 = 41`. -/
def tJwkPub : OkpJwk := ⟨"OKP", "X25519", b64u [41], none, none, none⟩

/-- The matching private JWK: `sk = 5`. -/
def tJwkPriv : OkpJwk := ⟨"OKP", "X25519", "", some (b64u [5]), none, none⟩

/-- A fixed ephemeral pair: `sk = 7`, `pk = 3^7 mod 101 = 66`. -/
def tEph : EphKeys := ⟨[66], [7]⟩

/-- An empty OTHER_REQUEST-shaped transport. -/
def tT : Transport := ⟨none, [], [], none⟩

/-- `mergeSort` on a two-element list. -/
theorem mergeSort_pair {α : Type} (a b : α) (le : α → α → Bool) :
    List.mergeSort [a, b] le = if le a b then [a, b] else [b, a] := by
  simp [List.mergeSort, List.merge]

/-- UTF-8 encoding of strings is injective. -/
theorem utf8Encode_inj (a b : String) (h : utf8Encode a = utf8Encode b) : a = b := by
  have h2 := congrArg utf8Decode h
  rwa [utf8Decode_encode, utf8Decode_encode] at h2

/-- C2 (corrected): on an accepted namespace the AAD builder emits
`UTF8(ns + "|v1|" + headersJson + "|" + bodyJson)` with the serialized headers
sorted by case-insensitive code-unit comparison of names and every object of
the body in canonical enumeration order: the ascending array-index keys first,
then the remaining keys in ascending code-unit order.  (Keys are not in plain
ascending code-point order throughout: integer-like keys are pulled to the
front numerically; see the counterexample.) -/
theorem buildAad_spec (nspace : String) (headers : List HeaderEntry)
    (body : List (String × JSValue))
    (h1 : nspace ≠ "") (h2 : jsToLower nspace ≠ "x402")
    (hwfb : wfKeys (.obj body) = true)
    (hwfh : ∀ h ∈ headers, wfKeys h.value = true) :
    ∃ r, buildAadFromTransport nspace headers body = .ok r ∧
      r.aadBytes = utf8Encode (nspace ++ "|v1|" ++ headersJsonOf r.headersNormalized
        ++ "|" ++ stringify (.obj r.bodyNormalized)) ∧
      List.Pairwise (fun a b => headerNameLe a.header b.header = true) r.headersNormalized ∧
      canonOrd (.obj r.bodyNormalized) = true ∧
      ∀ e ∈ r.headersNormalized, canonOrd e.value = true := by
  refine ⟨_, buildAad_ok nspace headers body h1 h2, rfl, ?_, ?_, ?_⟩
  · exact List.sorted_mergeSort
      (fun a b c hab hbc => headerNameLe_trans a.header b.header c.header hab hbc)
      (fun a b => headerNameLe_total a.header b.header)
      (headers.map fun h => (⟨h.header, deepCanonicalize h.value⟩ : HeaderEntry))
  · rw [← deepCanonicalize_objEq]
    exact deepCanon_canonOrd _ hwfb
  · intro e he
    obtain ⟨g, hg, rfl⟩ := headersNormalizedOf_mem _ e he
    exact deepCanon_canonOrd _ (hwfh g hg)

theorem buildAad_spec_witness :
    ∃ r, buildAadFromTransport "app" [⟨"B", .num 1⟩, ⟨"a", .num 2⟩] [("k", .num 3)] = .ok r ∧
      r.aadBytes = utf8Encode ("app" ++ "|v1|" ++ headersJsonOf r.headersNormalized
        ++ "|" ++ stringify (.obj r.bodyNormalized)) ∧
      List.Pairwise (fun a b => headerNameLe a.header b.header = true) r.headersNormalized ∧
      canonOrd (.obj r.bodyNormalized) = true ∧
      ∀ e ∈ r.headersNormalized, canonOrd e.value = true :=
  buildAad_spec "app" [⟨"B", .num 1⟩, ⟨"a", .num 2⟩] [("k", .num 3)]
    (by decide) (by decide) (by decide) (by decide)

/-- C2 counterexample: integer-like keys are reordered numerically to the
front, not kept in ascending code-point order (`"10" < "9"` in code-point
order, yet `"9"` is emitted first). -/
theorem numericKeys_order :
    deepCanonObj [("10", .num 1), ("9", .num 2)] = [("9", .num 2), ("10", .num 1)] ∧
    jsStrLt "10" "9" = true := by
  constructor
  · rw [deepCanonObj, deepCanonicalize_obj]
    simp [List.mergeSort, List.merge]
    decide
  · decide

/-- C5 (corrected): the sidecar body check of `open` requires each supplied key
to exist in the AAD body (`PUBLIC_KEY_NOT_IN_AAD` otherwise) and then compares
the raw `JSON.stringify` of the AAD value against the raw `JSON.stringify` of
the supplied value (`AAD_MISMATCH` exactly when those differ): the comparison
is insertion-order-sensitive, not canonical. -/
theorem verifySidecarBody_raw (body : List (String × JSValue)) (k : String)
    (v : JSValue) (rest : List (String × JSValue)) :
    verifySidecarBody body ((k, v) :: rest) =
      if ¬ jsObjHas body k then .error .PUBLIC_KEY_NOT_IN_AAD
      else if stringify ((jsObjLookup body k).getD .null) ≠ stringify v then
        .error .AAD_MISMATCH
      else verifySidecarBody body rest := by
  rw [verifySidecarBody]
  have hcond : (utf8Encode (stringify ((jsObjLookup body k).getD .null))
      = utf8Encode (stringify v)) ↔
      (stringify ((jsObjLookup body k).getD .null) = stringify v) :=
    ⟨fun h => utf8Encode_inj _ _ h, fun h => by rw [h]⟩
  simp only [ne_eq, hcond]

/-- C5 counterexample: a supplied value with the same canonical JSON as the
AAD value but a different insertion order fails with `AAD_MISMATCH`. -/
theorem sidecarBody_order_sensitive :
    verifySidecarBody [("k", .obj [("a", .num 1), ("b", .num 2)])]
        [("k", .obj [("b", .num 2), ("a", .num 1)])] = .error .AAD_MISMATCH ∧
    canonicalJson (.obj [("b", .num 2), ("a", .num 1)])
      = canonicalJson (.obj [("a", .num 1), ("b", .num 2)]) := by
  constructor
  · decide
  · rw [canonicalJson, canonicalJson]
    congr 1
    rw [deepCanonicalize_obj, deepCanonicalize_obj]
    rw [show (([("b", JSValue.num 2), ("a", JSValue.num 1)].map (·.1)) : List String)
        = ["b", "a"] from rfl]
    rw [show (([("a", JSValue.num 1), ("b", JSValue.num 2)].map (·.1)) : List String)
        = ["a", "b"] from rfl]
    rw [mergeSort_pair, mergeSort_pair]
    decide

/-- C6 (corrected): the AAD builder performs no collision check between body
keys and header names: every request with a permitted namespace is accepted,
colliding or not. -/
theorem buildAad_no_collision_check (nspace : String) (headers : List HeaderEntry)
    (body : List (String × JSValue)) (h1 : nspace ≠ "") (h2 : jsToLower nspace ≠ "x402") :
    ∃ r, buildAadFromTransport nspace headers body = .ok r :=
  ⟨_, buildAad_ok nspace headers body h1 h2⟩

theorem buildAad_no_collision_check_witness :
    ∃ r, buildAadFromTransport "app" [⟨"X-402-Routing", .num 1⟩]
        [("x-402-routing", .num 2)] = .ok r :=
  buildAad_no_collision_check "app" [⟨"X-402-Routing", .num 1⟩]
    [("x-402-routing", .num 2)] (by decide) (by decide)

/-- C6 counterexample: a seal whose body key collides case-insensitively with
a header name of the same message still succeeds. -/
theorem seal_accepts_collision :
    ∃ out, sealEnvelope tC ⟨"app", "X25519", "HKDF-SHA256", "CHACHA20-POLY1305", "k1",
        tJwkPub, ⟨some ⟨"X-402-Routing", .num 1⟩, [("x-402-routing", .num 2)], [], none⟩,
        none⟩ tEph = .ok out ∧
      jsToLower "x-402-routing" = jsToLower "X-402-Routing" := by
  refine ⟨_, sealEnvelope_none_ok tC "app" "X25519" "HKDF-SHA256" "k1" tJwkPub
    ⟨some ⟨"X-402-Routing", .num 1⟩, [("x-402-routing", .num 2)], [], none⟩ tEph [41]
    (by decide) (by decide) (by decide) (by decide) (by decide), by decide⟩

/-- C7 (corrected): the transport constructor validates nothing about the
extension entries: its outcome is the outcome on an empty extension list, with
the given extensions stored verbatim on success.  No registry membership or
duplicate-name check runs on any path. -/
theorem transport_extensions_verbatim (ty : TransportType)
    (content : List (String × JSValue)) (httpResponseCode : Option Int)
    (exts : List HeaderEntry) :
    x402SecureTransportNew ty content httpResponseCode exts =
      (x402SecureTransportNew ty content httpResponseCode []).map
        (fun tr => { tr with extensions := exts }) := by
  cases ty <;> simp only [x402SecureTransportNew] <;>
    (repeat' split) <;> simp [Except.map]

/-- C7 counterexample: sealing a transport carrying an extension whose header
name is outside the approved registry succeeds. -/
theorem seal_accepts_unapproved_extension :
    ∃ out, sealEnvelope tC ⟨"app", "X25519", "HKDF-SHA256", "CHACHA20-POLY1305", "k1",
        tJwkPub, ⟨none, [], [⟨"X-Example", .num 1⟩], none⟩, none⟩ tEph = .ok out ∧
      isApprovedExtensionHeader "X-Example" = false := by
  refine ⟨_, sealEnvelope_none_ok tC "app" "X25519" "HKDF-SHA256" "k1" tJwkPub
    ⟨none, [], [⟨"X-Example", .num 1⟩], none⟩ tEph [41]
    (by decide) (by decide) (by decide) (by decide) (by decide), by decide⟩

/-- C8 (corrected): OTHER_RESPONSE construction succeeds without an
httpResponseCode (storing none), fails with `OTHER_RESPONSE_402` exactly on
402, and keeps any other supplied code with the body equal to the content. -/
theorem otherResponse_code_optional (content : List (String × JSValue))
    (exts : List HeaderEntry) (code : Option Int) (h : code ≠ some 402) :
    x402SecureTransportNew .OTHER_RESPONSE content none exts
        = .ok ⟨none, content, exts, none⟩ ∧
    x402SecureTransportNew .OTHER_RESPONSE content (some 402) exts
        = .error .OTHER_RESPONSE_402 ∧
    x402SecureTransportNew .OTHER_RESPONSE content code exts
        = .ok ⟨none, content, exts, code⟩ := by
  refine ⟨?_, ?_, ?_⟩
  · rw [x402SecureTransportNew, if_neg (by simp)]
  · rw [x402SecureTransportNew, if_pos rfl]
  · rw [x402SecureTransportNew, if_neg h]

theorem otherResponse_code_optional_witness :
    x402SecureTransportNew .OTHER_RESPONSE [("a", .num 1)] none []
        = .ok ⟨none, [("a", .num 1)], [], none⟩ ∧
    x402SecureTransportNew .OTHER_RESPONSE [("a", .num 1)] (some 402) []
        = .error .OTHER_RESPONSE_402 ∧
    x402SecureTransportNew .OTHER_RESPONSE [("a", .num 1)] (some 500) []
        = .ok ⟨none, [("a", .num 1)], [], some 500⟩ :=
  otherResponse_code_optional [("a", .num 1)] [] (some 500) (by decide)

/-- C8 counterexample: an OTHER_RESPONSE transport is accepted with no
httpResponseCode at all, so the code is not required. -/
theorem otherResponse_absent_code_ok :
    x402SecureTransportNew .OTHER_RESPONSE [("a", .num 1)] none []
      = .ok ⟨none, [("a", .num 1)], [], none⟩ := by decide

/-- C9: the streaming limiter fails with `AEAD_LIMIT` (before encrypting,
leaving the counters unchanged) whenever the next chunk would exceed
`maxChunks` or `maxBytes`; otherwise it encrypts with nonce
`prefix ‖ le64(seq)` and only then advances the counters; the constructor
defaults are `maxChunks = 1000000` and `maxBytes = 1000000000`. -/
theorem limiter_enforces_limits
    (xEnc : List Nat → List Nat → List Nat → Option (List Nat) → List Nat)
    (st : StreamLimiter) (seq : Nat) (chunk : List Nat) (aad : Option (List Nat))
    (h16 : st.pfx16.length = 16) :
    ((st.chunksUsed + 1 > st.maxChunks ∨ st.bytesUsed + chunk.length > st.maxBytes) →
      limiterSeal xEnc st seq chunk aad = (.error .AEAD_LIMIT, st)) ∧
    (st.chunksUsed + 1 ≤ st.maxChunks → st.bytesUsed + chunk.length ≤ st.maxBytes →
      limiterSeal xEnc st seq chunk aad =
        (.ok (xEnc st.key (st.pfx16 ++ le64 seq) chunk aad),
          { st with chunksUsed := st.chunksUsed + 1,
                    bytesUsed := st.bytesUsed + chunk.length })) ∧
    (∀ key pfx, pfx.length = 16 →
      limiterNew key pfx none none = .ok ⟨key, pfx, 1000000, 1000000000, 0, 0⟩) := by
  refine ⟨?_, ?_, ?_⟩
  · intro h
    rw [limiterSeal]
    by_cases h1 : st.chunksUsed + 1 > st.maxChunks
    · rw [if_pos h1]
    · rw [if_neg h1, if_pos (by omega)]
  · intro hc hb
    rw [limiterSeal, if_neg (by omega), if_neg (by omega), sealChunkXChaCha,
      if_neg (by simp [h16])]
  · intro key pfx hp
    rw [limiterNew, if_neg (by simp [hp])]
    rfl

theorem limiter_enforces_limits_witness :
    ((1 + 1 > 1 ∨ 1 + [98].length > 1000000000) →
      limiterSeal (fun _ _ pt _ => pt) ⟨[], List.replicate 16 0, 1, 1000000000, 1, 1⟩ 1 [98]
        none = (.error .AEAD_LIMIT, ⟨[], List.replicate 16 0, 1, 1000000000, 1, 1⟩)) ∧
    (1 + 1 ≤ 1 → 1 + [98].length ≤ 1000000000 →
      limiterSeal (fun _ _ pt _ => pt) ⟨[], List.replicate 16 0, 1, 1000000000, 1, 1⟩ 1 [98]
        none = (.ok [98], ⟨[], List.replicate 16 0, 1, 1000000000, 2, 2⟩)) ∧
    (∀ key pfx, pfx.length = 16 →
      limiterNew key pfx none none = .ok ⟨key, pfx, 1000000, 1000000000, 0, 0⟩) :=
  limiter_enforces_limits (fun _ _ pt _ => pt)
    ⟨[], List.replicate 16 0, 1, 1000000000, 1, 1⟩ 1 [98] none (by decide)

/-- C10: `open` never inspects the envelope's `typ`, `suite`, `kem` or `kdf`
fields: two open calls identical except in those fields produce identical
outcomes. -/
theorem open_ignores_typ_suite_kem_kdf (C : Crypto) (ns kem kdf aead : String)
    (ekid : Option String) (jwk : OkpJwk) (ph pj : Option (List (String × String)))
    (pb : Option (List (String × JSValue)))
    (ver nsE kid aeadE enc aad ct t1 t2 k1 k2 d1 d2 : String) (s1 s2 : Option String) :
    openEnvelope C ⟨ns, kem, kdf, aead, ekid, jwk,
        ⟨t1, ver, s1, nsE, kid, k1, d1, aeadE, enc, aad, ct⟩, ph, pj, pb⟩ =
      openEnvelope C ⟨ns, kem, kdf, aead, ekid, jwk,
        ⟨t2, ver, s2, nsE, kid, k2, d2, aeadE, enc, aad, ct⟩, ph, pj, pb⟩ := rfl

theorem headersNormalizedOf_nil : headersNormalizedOf [] = [] := by
  simp [headersNormalizedOf]

theorem deepCanonObj_nil : deepCanonObj [] = [] := by
  rw [deepCanonObj, deepCanonicalize_obj]
  simp

/-- base64url round-trips on UTF-8 byte strings. -/
theorem b64u_utf8_roundtrip (s : String) :
    b64uToBytes (b64u (utf8Encode s)) = utf8Encode s :=
  b64uToBytes_b64u _ (utf8Encode_lt_256 s)

/-- base64url round-trips on toy ciphertexts of UTF-8 plaintexts. -/
theorem tC_ct_b64u_roundtrip (k n ad : List Nat) (s : String) :
    b64uToBytes (b64u (tC.aeadEnc k n (utf8Encode s) ad))
      = tC.aeadEnc k n (utf8Encode s) ad :=
  b64uToBytes_b64u _ (tC_enc_lt_256 _ _ _ _ (utf8Encode_lt_256 s))

/-- The spec's derivation, stated in RFC 5869 form: HKDF-Extract with a
32-byte all-zero salt, then two counter blocks of HKDF-Expand truncated to 44
bytes.  A spec-side model, to be compared with the source's `hkdfSha256`. -/
def hkdfRfc44 (hmac : List Nat → List Nat → List Nat) (ikm info : List Nat) : List Nat :=
  let prk := hmac (List.replicate 32 0) ikm
  let t1 := hmac prk (info ++ [1])
  let t2 := hmac prk (t1 ++ info ++ [2])
  (t1 ++ t2).take 44

/-- The source's 44-byte HKDF request coincides with the spec's RFC
extract/expand derivation. -/
theorem hkdfSha256_eq_rfc (f : List Nat → List Nat → List Nat) (ikm info : List Nat) :
    hkdfSha256 f ikm info 44 = hkdfRfc44 f ikm info :=
  hkdf44 f ikm info

/-- C3: both `seal` and `open` derive their key material by HKDF-SHA256 with a
32-byte all-zero salt over the shared secret, expanded with the exact info
string
`"x402-hpke:v1|KDF=HKDF-SHA256|AEAD=CHACHA20-POLY1305|ns=<ns>|enc=<enc>|pkR=<pkR>"`
to 44 bytes, of which the first 32 are the AEAD key and the last 12 the nonce:
`seal` encrypts under exactly that material, and `open`'s decryption succeeds
or fails (`DECRYPT_FAILED`) exactly as the AEAD opens under that material. -/
theorem seal_open_hkdf_derivation (C : Crypto) (ns kem kid : String)
    (jwkPub jwkPriv : OkpJwk) (t : Transport) (eph : EphKeys) (pkR skR : List Nat)
    (E2 : Envelope)
    (h1 : ns ≠ "") (h2 : jsToLower ns ≠ "x402")
    (hpub : jwkToPublicKeyBytes jwkPub = .ok pkR)
    (hz1 : isAllZero pkR = false)
    (hz2 : isAllZero (C.scalarmult eph.sk pkR) = false)
    (hver : E2.ver = "1") (hns2 : jsToLower E2.ns ≠ "x402")
    (haead2 : E2.aead = "CHACHA20-POLY1305")
    (hpriv : jwkToPrivateKeyBytes jwkPriv = .ok skR)
    (hz3 : isAllZero (b64uToBytes E2.enc) = false)
    (hz4 : isAllZero (C.scalarmult skR (b64uToBytes E2.enc)) = false) :
    (∃ E, sealEnvelope C ⟨ns, kem, "HKDF-SHA256", "CHACHA20-POLY1305", kid, jwkPub, t, none⟩
        eph = .ok ⟨E, none, none⟩ ∧
      E.ct = b64u (C.aeadEnc
        ((hkdfRfc44 C.hmac (C.scalarmult eph.sk pkR)
          (utf8Encode ("x402-hpke:v1|KDF=HKDF-SHA256|AEAD=CHACHA20-POLY1305|ns=" ++ ns
            ++ "|enc=" ++ b64u eph.pk ++ "|pkR=" ++ b64u pkR))).take 32)
        ((hkdfRfc44 C.hmac (C.scalarmult eph.sk pkR)
          (utf8Encode ("x402-hpke:v1|KDF=HKDF-SHA256|AEAD=CHACHA20-POLY1305|ns=" ++ ns
            ++ "|enc=" ++ b64u eph.pk ++ "|pkR=" ++ b64u pkR))).drop 32)
        (utf8Encode (stringify (.obj (deepCanonObj t.body)))) (b64uToBytes E.aad))) ∧
    ((C.aeadDec
        ((hkdfRfc44 C.hmac (C.scalarmult skR (b64uToBytes E2.enc))
          (utf8Encode ("x402-hpke:v1|KDF=HKDF-SHA256|AEAD=CHACHA20-POLY1305|ns=" ++ E2.ns
            ++ "|enc=" ++ E2.enc ++ "|pkR=" ++ b64u (C.scalarmultBase skR)))).take 32)
        ((hkdfRfc44 C.hmac (C.scalarmult skR (b64uToBytes E2.enc))
          (utf8Encode ("x402-hpke:v1|KDF=HKDF-SHA256|AEAD=CHACHA20-POLY1305|ns=" ++ E2.ns
            ++ "|enc=" ++ E2.enc ++ "|pkR=" ++ b64u (C.scalarmultBase skR)))).drop 32)
        (b64uToBytes E2.ct) (b64uToBytes E2.aad) = none →
      openEnvelope C ⟨E2.ns, kem, "HKDF-SHA256", "CHACHA20-POLY1305", none, jwkPriv, E2,
        none, none, none⟩ = .error .DECRYPT_FAILED) ∧
    (∀ pt0, C.aeadDec
        ((hkdfRfc44 C.hmac (C.scalarmult skR (b64uToBytes E2.enc))
          (utf8Encode ("x402-hpke:v1|KDF=HKDF-SHA256|AEAD=CHACHA20-POLY1305|ns=" ++ E2.ns
            ++ "|enc=" ++ E2.enc ++ "|pkR=" ++ b64u (C.scalarmultBase skR)))).take 32)
        ((hkdfRfc44 C.hmac (C.scalarmult skR (b64uToBytes E2.enc))
          (utf8Encode ("x402-hpke:v1|KDF=HKDF-SHA256|AEAD=CHACHA20-POLY1305|ns=" ++ E2.ns
            ++ "|enc=" ++ E2.enc ++ "|pkR=" ++ b64u (C.scalarmultBase skR)))).drop 32)
        (b64uToBytes E2.ct) (b64uToBytes E2.aad) = some pt0 →
      openEnvelope C ⟨E2.ns, kem, "HKDF-SHA256", "CHACHA20-POLY1305", none, jwkPriv, E2,
        none, none, none⟩ ≠ .error .DECRYPT_FAILED)) := by
  refine ⟨⟨_, sealEnvelope_none_ok C ns kem "HKDF-SHA256" kid jwkPub t eph pkR
    h1 h2 hpub hz1 hz2, ?_⟩, ?_, ?_⟩
  · show b64u _ = b64u _
    rw [b64u_utf8_roundtrip]
    rw [show ("x402-hpke:v1|KDF=" ++ "HKDF-SHA256" ++ "|AEAD=" ++ "CHACHA20-POLY1305"
        ++ "|ns=" : String) = "x402-hpke:v1|KDF=HKDF-SHA256|AEAD=CHACHA20-POLY1305|ns="
      from by decide]
    rw [hkdfSha256_eq_rfc]
  · intro hd
    simp only [openEnvelope, hver, hns2, haead2, hpriv]
    rw [if_neg (by simp [hver, hns2]), if_neg (by simp [haead2]), if_neg (by simp),
      if_neg (by simp), if_neg (by simp)]
    simp only [hpriv, hz3, hz4, Bool.false_eq_true, if_false]
    rw [show ("x402-hpke:v1|KDF=" ++ "HKDF-SHA256" ++ "|AEAD=" ++ "CHACHA20-POLY1305"
        ++ "|ns=" : String) = "x402-hpke:v1|KDF=HKDF-SHA256|AEAD=CHACHA20-POLY1305|ns="
      from by decide]
    rw [hkdfSha256_eq_rfc, hd]
  · intro pt0 hd
    simp only [openEnvelope, hver, hns2, haead2, hpriv]
    rw [if_neg (by simp [hver, hns2]), if_neg (by simp [haead2]), if_neg (by simp),
      if_neg (by simp), if_neg (by simp)]
    simp only [hpriv, hz3, hz4, Bool.false_eq_true, if_false]
    rw [show ("x402-hpke:v1|KDF=" ++ "HKDF-SHA256" ++ "|AEAD=" ++ "CHACHA20-POLY1305"
        ++ "|ns=" : String) = "x402-hpke:v1|KDF=HKDF-SHA256|AEAD=CHACHA20-POLY1305|ns="
      from by decide]
    rw [hkdfSha256_eq_rfc]
    simp only [hd]
    repeat' split
    all_goals try simp_all [Option.orElse]
    all_goals (rename_i heq2; split at heq2 <;> (try split at heq2) <;> (try simp_all))
    all_goals (intro hcon; subst hcon; simp_all)

theorem seal_open_hkdf_derivation_witness :
    (∃ E, sealEnvelope tC ⟨"app", "X25519", "HKDF-SHA256", "CHACHA20-POLY1305", "k1",
        tJwkPub, tT, none⟩ tEph = .ok ⟨E, none, none⟩ ∧
      E.ct = b64u (tC.aeadEnc
        ((hkdfRfc44 tC.hmac (tC.scalarmult tEph.sk [41])
          (utf8Encode ("x402-hpke:v1|KDF=HKDF-SHA256|AEAD=CHACHA20-POLY1305|ns=" ++ "app"
            ++ "|enc=" ++ b64u tEph.pk ++ "|pkR=" ++ b64u [41]))).take 32)
        ((hkdfRfc44 tC.hmac (tC.scalarmult tEph.sk [41])
          (utf8Encode ("x402-hpke:v1|KDF=HKDF-SHA256|AEAD=CHACHA20-POLY1305|ns=" ++ "app"
            ++ "|enc=" ++ b64u tEph.pk ++ "|pkR=" ++ b64u [41]))).drop 32)
        (utf8Encode (stringify (.obj (deepCanonObj tT.body)))) (b64uToBytes E.aad))) ∧
    ((tC.aeadDec
        ((hkdfRfc44 tC.hmac (tC.scalarmult [5] (b64uToBytes (b64u [66])))
          (utf8Encode ("x402-hpke:v1|KDF=HKDF-SHA256|AEAD=CHACHA20-POLY1305|ns=" ++ "app"
            ++ "|enc=" ++ b64u [66] ++ "|pkR=" ++ b64u (tC.scalarmultBase [5])))).take 32)
        ((hkdfRfc44 tC.hmac (tC.scalarmult [5] (b64uToBytes (b64u [66])))
          (utf8Encode ("x402-hpke:v1|KDF=HKDF-SHA256|AEAD=CHACHA20-POLY1305|ns=" ++ "app"
            ++ "|enc=" ++ b64u [66] ++ "|pkR=" ++ b64u (tC.scalarmultBase [5])))).drop 32)
        (b64uToBytes "") (b64uToBytes "") = none →
      openEnvelope tC ⟨"app", "X25519", "HKDF-SHA256", "CHACHA20-POLY1305", none, tJwkPriv,
        ⟨"hpke-envelope", "1", none, "app", "k1", "X25519", "HKDF-SHA256",
         "CHACHA20-POLY1305", b64u [66], "", ""⟩,
        none, none, none⟩ = .error .DECRYPT_FAILED) ∧
    (∀ pt0, tC.aeadDec
        ((hkdfRfc44 tC.hmac (tC.scalarmult [5] (b64uToBytes (b64u [66])))
          (utf8Encode ("x402-hpke:v1|KDF=HKDF-SHA256|AEAD=CHACHA20-POLY1305|ns=" ++ "app"
            ++ "|enc=" ++ b64u [66] ++ "|pkR=" ++ b64u (tC.scalarmultBase [5])))).take 32)
        ((hkdfRfc44 tC.hmac (tC.scalarmult [5] (b64uToBytes (b64u [66])))
          (utf8Encode ("x402-hpke:v1|KDF=HKDF-SHA256|AEAD=CHACHA20-POLY1305|ns=" ++ "app"
            ++ "|enc=" ++ b64u [66] ++ "|pkR=" ++ b64u (tC.scalarmultBase [5])))).drop 32)
        (b64uToBytes "") (b64uToBytes "") = some pt0 →
      openEnvelope tC ⟨"app", "X25519", "HKDF-SHA256", "CHACHA20-POLY1305", none, tJwkPriv,
        ⟨"hpke-envelope", "1", none, "app", "k1", "X25519", "HKDF-SHA256",
         "CHACHA20-POLY1305", b64u [66], "", ""⟩,
        none, none, none⟩ ≠ .error .DECRYPT_FAILED)) :=
  seal_open_hkdf_derivation tC "app" "X25519" "k1" tJwkPub tJwkPriv tT tEph [41] [5]
    ⟨"hpke-envelope", "1", none, "app", "k1", "X25519", "HKDF-SHA256",
     "CHACHA20-POLY1305", b64u [66], "", ""⟩
    (by decide) (by decide) (by decide) (by decide) (by decide) (by decide) (by decide)
    (by decide) (by decide) (by decide) (by decide)

/-- C4 (corrected): a namespace lowercasing to `"x402"` makes `seal` fail with
`NS_FORBIDDEN`, while `open` of an envelope whose `ns` field lowercases to
`"x402"` fails with `INVALID_ENVELOPE` (not `NS_FORBIDDEN`). -/
theorem ns_x402_forbidden (C : Crypto) (a : SealArgs) (eph : EphKeys) (oa : OpenArgs)
    (ha : a.aead = "CHACHA20-POLY1305") (hs : jsToLower a.nspace = "x402")
    (ho : jsToLower oa.envelope.ns = "x402") :
    sealEnvelope C a eph = .error .NS_FORBIDDEN ∧
    openEnvelope C oa = .error .INVALID_ENVELOPE ∧
    Err.INVALID_ENVELOPE ≠ Err.NS_FORBIDDEN := by
  refine ⟨?_, ?_, by decide⟩
  · simp [sealEnvelope, ha, buildAadFromTransport, hs]
  · simp [openEnvelope, ho]

theorem ns_x402_forbidden_witness :
    sealEnvelope tC ⟨"X402", "X25519", "HKDF-SHA256", "CHACHA20-POLY1305", "k1", tJwkPub,
        tT, none⟩ tEph = .error .NS_FORBIDDEN ∧
    openEnvelope tC ⟨"app", "X25519", "HKDF-SHA256", "CHACHA20-POLY1305", none, tJwkPriv,
        ⟨"hpke-envelope", "1", none, "X402", "k", "kem", "kdf", "CHACHA20-POLY1305",
          "e", "a", "c"⟩, none, none, none⟩ = .error .INVALID_ENVELOPE ∧
    Err.INVALID_ENVELOPE ≠ Err.NS_FORBIDDEN :=
  ns_x402_forbidden tC ⟨"X402", "X25519", "HKDF-SHA256", "CHACHA20-POLY1305", "k1", tJwkPub,
      tT, none⟩ tEph
    ⟨"app", "X25519", "HKDF-SHA256", "CHACHA20-POLY1305", none, tJwkPriv,
      ⟨"hpke-envelope", "1", none, "X402", "k", "kem", "kdf", "CHACHA20-POLY1305",
        "e", "a", "c"⟩, none, none, none⟩
    (by decide) (by decide) (by decide)

/-- C4 counterexample: `open` on an envelope with a forbidden namespace throws
`INVALID_ENVELOPE`, which is a different error than the claimed
`NS_FORBIDDEN`. -/
theorem open_forbidden_ns_error_kind :
    openEnvelope tC ⟨"app", "X25519", "HKDF-SHA256", "CHACHA20-POLY1305", none, tJwkPriv,
        ⟨"hpke-envelope", "1", none, "x402", "k", "kem", "kdf", "CHACHA20-POLY1305",
          "e", "a", "c"⟩, none, none, none⟩ = .error .INVALID_ENVELOPE ∧
    Err.INVALID_ENVELOPE ≠ Err.NS_FORBIDDEN := by
  constructor
  · rfl
  · decide

theorem seal_open_roundtrip_witness :
    ∃ E, sealEnvelope tC ⟨"app", "X25519", "HKDF-SHA256", "CHACHA20-POLY1305", "k1",
        tJwkPub, tT, none⟩ tEph = .ok ⟨E, none, none⟩ ∧
      openEnvelope tC ⟨"app", "X25519", "HKDF-SHA256", "CHACHA20-POLY1305", none, tJwkPriv,
          E, none, none, none⟩
        = .ok ⟨utf8Encode (canonicalJson (.obj tT.body)),
            some (.obj (deepCanonObj tT.body)),
            some (headersArrVal (headersNormalizedOf (transportHeaders tT))),
            none, none, none, none⟩ :=
  seal_open_roundtrip tC "app" "X25519" "HKDF-SHA256" "k1" tJwkPub tJwkPriv tT tEph [41] [5]
    (by decide) (by decide) (by decide) (by decide) (by decide) (by decide) (by decide)
    (by decide) (by decide) (by decide) tC_enc_lt_256 tC_aead_roundtrip (by decide)
    (by decide) (by decide)
    (by rw [show transportHeaders tT = [] from rfl, headersNormalizedOf_nil]; decide)
    (by rw [show tT.body = [] from rfl, deepCanonObj_nil]; decide)

set_option maxRecDepth 8192 in
/-- C1 counterexample: with a namespace containing a pipe (`"a|b"`), the seal
succeeds but `open` misparses the AAD at the pipes and throws a JSON syntax
error instead of round-tripping. -/
theorem seal_open_pipe_ns_fails :
    ∃ E, sealEnvelope tC ⟨"a|b", "X25519", "HKDF-SHA256", "CHACHA20-POLY1305", "k1",
        tJwkPub, tT, none⟩ tEph = .ok ⟨E, none, none⟩ ∧
      openEnvelope tC ⟨"a|b", "X25519", "HKDF-SHA256", "CHACHA20-POLY1305", none, tJwkPriv,
          E, none, none, none⟩ = .error .JSON_SYNTAX := by
  refine ⟨_, sealEnvelope_none_ok tC "a|b" "X25519" "HKDF-SHA256" "k1" tJwkPub tT tEph [41]
    (by decide) (by decide) (by decide) (by decide) (by decide), ?_⟩
  have hJe : headersJsonOf (headersNormalizedOf (transportHeaders tT)) = "[]" := by
    rw [show transportHeaders tT = [] from rfl, headersNormalizedOf_nil]
    decide
  have hBe : stringify (.obj (deepCanonObj tT.body)) = "{}" := by
    rw [show tT.body = [] from rfl, deepCanonObj_nil]
    decide
  rw [hJe, hBe]
  have hF : ("a|b" ++ "|v1|" ++ "[]" ++ "|" ++ "{}" : String) = "a|b|v1|[]|{}" := by decide
  have hsplit : splitPipe ("a|b|v1|[]|{}" : String).data
      = [['a'], ['b'], ['v', '1'], ['[', ']'], ['{', '}']] := by decide
  have hns : jsToLower "a|b" ≠ "x402" := by decide
  have hpriv : jwkToPrivateKeyBytes tJwkPriv = .ok [5] := by decide
  have hencR : b64uToBytes (b64u tEph.pk) = tEph.pk := by decide
  have hz3 : isAllZero tEph.pk = false := by decide
  have hsh : isAllZero (tC.scalarmult tEph.sk [41]) = false := by decide
  have hv1 : jsonParse (String.mk ['v', '1']) = none := by decide
  have hdh2 : tC.scalarmult [5] tEph.pk = tC.scalarmult tEph.sk [41] := by decide
  have hbase2 : tC.scalarmultBase [5] = [41] := by decide
  simp [openEnvelope, hns, hpriv, hencR, hz3, hsh, hF, hdh2, hbase2, b64u_utf8_roundtrip,
    tC_ct_b64u_roundtrip, tC_aead_roundtrip, utf8Decode_encode, hsplit, hv1]

end X402
